import Mathlib

/-!
Shallow embedding of the query-execution engine in `src/database.py`:
the typed row/cell data model, the pull-based operators
(TableScan, Filter, Project, Limit, Sort) with their `get_next` protocol,
and the multi-key row comparison used by sorting.

Python exceptions are modelled by the spec's error taxonomy (`DbError`);
the mutable iterator state of each operator is modelled by an explicit
state value (`Op`), and one `get_next` call is the step function `Op.next`.
-/

namespace MiniDb

/-- `SortOrder` enum from src/database.py. -/
inductive SortOrder where
  | DESC
  | ASC
deriving DecidableEq, Repr

/-- `DataType` enum from src/database.py. -/
inductive DataType where
  | INT
  | CHAR
  | VARCHAR
  | DATETIME
deriving DecidableEq, Repr

/-- Error taxonomy. Python raises `Exception`/`KeyError`/`IndexError`/
`AttributeError`; these are mapped to the engine's error kinds
(`SchemaError`, `ConversionError`, `ColumnNotFoundError`, ...).
`outOfFuel` is an artefact of the embedding and never occurs for the
fuel bounds used below. -/
inductive DbError where
  | schemaError (tag : String)
  | conversionError (src : String)
  | columnNotFound (name : String)
  | keyError
  | indexError
  | attributeError
  | outOfFuel
deriving DecidableEq, Repr

instance instDecEqExcept {ε α : Type} [DecidableEq ε] [DecidableEq α] :
    DecidableEq (Except ε α) := fun a b =>
  match a, b with
  | .error e₁, .error e₂ =>
    if h : e₁ = e₂ then .isTrue (by rw [h])
    else .isFalse (fun hc => h (by cases hc; rfl))
  | .error _, .ok _ => .isFalse (fun hc => Except.noConfusion hc)
  | .ok _, .error _ => .isFalse (fun hc => Except.noConfusion hc)
  | .ok a₁, .ok a₂ =>
    if h : a₁ = a₂ then .isTrue (by rw [h])
    else .isFalse (fun hc => h (by cases hc; rfl))

/-- `DataType.from_string` from src/database.py: parse a type tag,
unknown tags raise (schema error). -/
def DataType.from_string (data_type : String) : Except DbError DataType :=
  if data_type = "int" then .ok .INT
  else if data_type = "char" then .ok .CHAR
  else if data_type = "varchar" then .ok .VARCHAR
  else if data_type = "datetime" then .ok .DATETIME
  else .error (.schemaError data_type)

/-- A cell value: integers for INT columns, text for CHAR/VARCHAR/DATETIME.
Python stores untyped objects; only these two shapes are ever produced by
`TableScan._convert`. -/
inductive Value where
  | intV (i : Int)
  | strV (s : String)
deriving DecidableEq, Repr

/-- `CellMetadata` from src/database.py: one column descriptor. -/
structure CellMetadata where
  name : String
  type : DataType
  size : Int
  null : Bool
deriving DecidableEq, Repr

/-- `CellMetadata.__init__` from src/database.py: note that the stored
attribute is `self.null = not is_null`. -/
def CellMetadata.init (name : String) (data_type : DataType) (value_size : Int)
    (is_null : Bool) : CellMetadata :=
  ⟨name, data_type, value_size, !is_null⟩

/-- `Cell` from src/database.py. -/
structure Cell where
  value : Value
deriving DecidableEq, Repr

/-- `Row` from src/database.py: positional metadata paired with cells.
(`TableScan` builds `metas` as a dict keyed by consecutive integers
`0..n-1`, which iterates in insertion order; it is modelled as a list.) -/
structure Row where
  metas : List CellMetadata
  cells : List Cell
deriving DecidableEq, Repr

/-- The row invariant: one metadata entry per cell, positionally. -/
def WFRow (r : Row) : Prop := r.metas.length = r.cells.length

instance (r : Row) : Decidable (WFRow r) := by
  unfold WFRow; infer_instance

/-- Python `int(...)` applied to a whitespace-free field (fields come from
`str.split()`): an optional sign followed by one or more digits; anything
else raises, which `TableScan` surfaces as a conversion error. -/
def digitsVal (cs : List Char) : Nat :=
  cs.foldl (fun a c => a * 10 + (c.toNat - 48)) 0

/-- Parse a signed decimal integer the way Python `int()` does on a
`split()` field; non-numeric text is a `ConversionError`. -/
def parsePyInt (s : String) : Except DbError Int :=
  match s.toList with
  | '-' :: rest =>
    if rest ≠ [] ∧ rest.all Char.isDigit then .ok (-(digitsVal rest : Int))
    else .error (.conversionError s)
  | '+' :: rest =>
    if rest ≠ [] ∧ rest.all Char.isDigit then .ok ((digitsVal rest : Int))
    else .error (.conversionError s)
  | cs =>
    if cs ≠ [] ∧ cs.all Char.isDigit then .ok ((digitsVal cs : Int))
    else .error (.conversionError s)

/-- `TableScan._convert` from src/database.py: convert one field per the
column's declared type. -/
def TableScan.convert (src : String) (cmd : CellMetadata) : Except DbError Value :=
  match cmd.type with
  | .INT =>
    match parsePyInt src with
    | .error e => .error e
    | .ok n => .ok (.intV n)
  | .CHAR => .ok (.strV src)
  | .VARCHAR => .ok (.strV src)
  | .DATETIME => .ok (.strV src)

/-- The field loop of `TableScan.get_next`: walk the split fields in
positional order, look up `self.metadata[i]` (a missing position is a
`KeyError`) and convert the field; collect the used metadata and the
converted cells. -/
def convertFields : List CellMetadata → List String → Except DbError (List CellMetadata × List Cell)
  | _, [] => .ok ([], [])
  | [], _ :: _ => .error .keyError
  | m :: ms, f :: fs =>
    match TableScan.convert f m with
    | .error e => .error e
    | .ok v =>
      match convertFields ms fs with
      | .error e => .error e
      | .ok (rm, rc) => .ok (m :: rm, ⟨v⟩ :: rc)

/-- One data record of `TableScan.get_next`: convert all fields and pair
schema metadata with the converted cells. -/
def scanRow (schema : List CellMetadata) (fields : List String) : Except DbError Row :=
  match convertFields schema fields with
  | .error e => .error e
  | .ok (ms, cs) => .ok ⟨ms, cs⟩

/-- The column-locating loop of `Filter.__filter__`: index of the first
metadata entry with the given name. -/
def findColIdx (name : String) (metas : List CellMetadata) : Option Nat :=
  metas.findIdx? (fun cmd => cmd.name == name)

/-- `Filter.__filter__` from src/database.py: locate the column by name
(raising if absent), fetch the cell at that index, compare by value
equality. -/
def Filter.filterRow (name : String) (value : Value) (row : Row) : Except DbError Bool :=
  match findColIdx name row.metas with
  | none => .error (.columnNotFound name)
  | some index =>
    match row.cells[index]? with
    | none => .error .indexError
    | some cell => .ok (cell.value == value)

/-- The name-keyed dict `mds` built by `Project.get_next`: since later
entries overwrite earlier ones, a lookup returns the last
`(metadata, cell)` pair with the given column name. -/
def lastLookup (pairs : List (CellMetadata × Cell)) (name : String) :
    Option (CellMetadata × Cell) :=
  (pairs.filter (fun p => p.1.name == name)).getLast?

/-- The output loop of `Project.get_next`: for each requested column name,
look it up in the dict (a missing name raises — `ColumnNotFoundError`),
collecting the metadata and cells in the requested order. -/
def projectCols (pairs : List (CellMetadata × Cell)) :
    List String → Except DbError (List CellMetadata × List Cell)
  | [] => .ok ([], [])
  | c :: cs =>
    match lastLookup pairs c with
    | none => .error (.columnNotFound c)
    | some mc =>
      match projectCols pairs cs with
      | .error e => .error e
      | .ok (rm, rc) => .ok (mc.1 :: rm, mc.2 :: rc)

/-- `Project.get_next`'s row transformation: build the name dict over all
metadata positions (`row.cells[i]` raises `IndexError` when the cells list
is shorter than the metadata list), then assemble the requested columns. -/
def Project.projectRow (columns : List String) (row : Row) : Except DbError Row :=
  if row.cells.length < row.metas.length then .error .indexError
  else
    match projectCols (row.metas.zip row.cells) columns with
    | .error e => .error e
    | .ok (ms, cs) => .ok ⟨ms, cs⟩

/-- Operator state. One constructor per operator variant of
src/database.py, holding the mutable state that `get_next` reads and
writes:
* `scan`: the not-yet-read data records (already split into fields, as
  `line.split()` does) and the schema read by `open`;
* `filter`, `project`, `limit`: their construction parameters plus the
  downstream operator's state (`limit` also tracks `self.index`);
* `sort`: the materialized buffer `self.extra` and the cursor
  `self.index` (its downstream is not consulted by `get_next`). -/
inductive Op where
  | scan (lines : List (List String)) (schema : List CellMetadata)
  | filter (downstream : Op) (name : String) (value : Value)
  | project (downstream : Op) (columns : List String)
  | limit (downstream : Op) (offset : Int) (lim : Int) (index : Int)
  | sort (extra : List Row) (index : Nat)
deriving DecidableEq, Repr

/-- Upper bound on the number of rows an operator state can still yield. -/
def Op.rowsLeft : Op → Nat
  | .scan lines _ => lines.length
  | .filter d _ _ => d.rowsLeft
  | .project d _ => d.rowsLeft
  | .limit d _ _ _ => d.rowsLeft
  | .sort extra index => extra.length - index

/-- Nesting depth of the operator tree. -/
def Op.depth : Op → Nat
  | .scan _ _ => 0
  | .sort _ _ => 0
  | .filter d _ _ => d.depth + 1
  | .project d _ => d.depth + 1
  | .limit d _ _ _ => d.depth + 1

/-- Fuel sufficient for one `get_next` call on `op` (proved below). -/
def Op.fuelNeed (op : Op) : Nat := op.depth + op.rowsLeft + 1

/-- One `get_next` call, fuelled. The fuel only bounds the number of
(nested or repeated) downstream pulls; `Op.next` below instantiates it
with a sufficient bound, so `outOfFuel` never occurs. Each case is the
body of the corresponding `get_next` in src/database.py:
* `scan`: EOF (`''`) signals exhaustion, otherwise convert the record;
* `project`: pull one row, transform it (or pass exhaustion through);
* `filter`: pull rows, skipping non-matching ones, until a match or
  exhaustion;
* `limit`: always pull one row first; return it only when it exists and
  `self.index < self.limit` (incrementing the count), else return the
  exhausted signal — `offset` is never consulted;
* `sort`: emit `self.extra[self.index]` while in range, else exhausted. -/
def Op.nextF : Nat → Op → Except DbError (Option Row × Op)
  | 0, _ => .error .outOfFuel
  | _ + 1, .scan [] schema => .ok (none, .scan [] schema)
  | _ + 1, .scan (fields :: rest) schema =>
    match scanRow schema fields with
    | .error e => .error e
    | .ok r => .ok (some r, .scan rest schema)
  | fuel + 1, .project d cols =>
    match Op.nextF fuel d with
    | .error e => .error e
    | .ok (none, d₂) => .ok (none, .project d₂ cols)
    | .ok (some r, d₂) =>
      match Project.projectRow cols r with
      | .error e => .error e
      | .ok r₂ => .ok (some r₂, .project d₂ cols)
  | fuel + 1, .filter d name v =>
    match Op.nextF fuel d with
    | .error e => .error e
    | .ok (none, d₂) => .ok (none, .filter d₂ name v)
    | .ok (some r, d₂) =>
      match Filter.filterRow name v r with
      | .error e => .error e
      | .ok true => .ok (some r, .filter d₂ name v)
      | .ok false => Op.nextF fuel (.filter d₂ name v)
  | fuel + 1, .limit d o l i =>
    match Op.nextF fuel d with
    | .error e => .error e
    | .ok (some r, d₂) =>
      if i < l then .ok (some r, .limit d₂ o l (i + 1))
      else .ok (none, .limit d₂ o l i)
    | .ok (none, d₂) => .ok (none, .limit d₂ o l i)
  | _ + 1, .sort extra index =>
    match extra[index]? with
    | some r => .ok (some r, .sort extra (index + 1))
    | none => .ok (none, .sort extra index)

/-- One `get_next` call on operator state `op`: returns either an error,
or the produced row (`none` = the exhausted signal) together with the
successor state. -/
def Op.next (op : Op) : Except DbError (Option Row × Op) :=
  Op.nextF op.fuelNeed op

/-- Iterated `get_next`: `callN k op` is the result of the `(k+1)`-st call
when the first `k` calls succeed (threading the state); an intervening
error propagates. -/
def Op.callN : Nat → Op → Except DbError (Option Row × Op)
  | 0, op => op.next
  | k + 1, op =>
    match op.next with
    | .error e => .error e
    | .ok (_, op₂) => Op.callN k op₂

/-- Drain an operator, fuelled: repeatedly call `get_next`, collecting
rows until the exhausted signal; an error propagates. -/
def Op.drainF : Nat → Op → Except DbError (List Row)
  | 0, _ => .error .outOfFuel
  | fuel + 1, op =>
    match op.next with
    | .error e => .error e
    | .ok (none, _) => .ok []
    | .ok (some r, op₂) =>
      match Op.drainF fuel op₂ with
      | .error e => .error e
      | .ok rs => .ok (r :: rs)

/-- The full output sequence of an operator state: every row produced by
successive `get_next` calls until the exhausted signal. -/
def Op.drain (op : Op) : Except DbError (List Row) :=
  Op.drainF (op.rowsLeft + 1) op

/-- Well-formedness of an operator state: every row buffered inside a
sort state satisfies the row invariant (states reached from a scan always
do). -/
def Op.WF : Op → Prop
  | .scan _ _ => True
  | .filter d _ _ => d.WF
  | .project d _ => d.WF
  | .limit d _ _ _ => d.WF
  | .sort extra _ => ∀ r ∈ extra, WFRow r

/-- Column presence: the lookup loop of `Filter.__filter__` finds the
name among the row's metadata. -/
def HasCol (name : String) (r : Row) : Prop := (findColIdx name r.metas).isSome

instance (name : String) (r : Row) : Decidable (HasCol name r) := by
  unfold HasCol; infer_instance

/-- First-match lookup of a cell value by column name: the column located
by the lookup loops of `Filter.__filter__` paired with the cell at the
same position. -/
def lookupVal (name : String) (r : Row) : Option Value :=
  ((r.metas.zip r.cells).find? (fun p => p.1.name == name)).map (fun p => p.2.value)

/-- The Filter predicate as a function of the row: the first cell named
`name` equals the literal `v` by value equality. -/
def matchesVal (name : String) (v : Value) (r : Row) : Bool :=
  match lookupVal name r with
  | some w => w == v
  | none => false

/-- `TableScan.__init__` leaves `self.file = None`; `open` stores a file
handle. The handle state is modelled as `none` (never opened),
`some true` (open) or `some false` (closed). -/
def tableScanInitFile : Option Bool := none

/-- `TableScan.close` runs `self.file.close()`: on `None` (never opened)
this is an `AttributeError`; on a file object it succeeds and leaves the
handle closed — closing an already-closed Python file object is a
documented no-op, so a second `close()` also succeeds. -/
def tableScanClose (file : Option Bool) : Except DbError (Option Bool) :=
  match file with
  | none => .error .attributeError
  | some _ => .ok (some false)

/-- Modelled from the spec: type-aware value ordering used by the sort
comparison of §4.6 (integers numerically, text lexicographically,
datetime as its text representation). The spec only compares values
within one column's type; the cross-type cases get a fixed arbitrary
order so that the comparator is total. -/
def compareVals : Value → Value → Ordering
  | .intV a, .intV b => if a < b then .lt else if b < a then .gt else .eq
  | .strV a, .strV b => if a < b then .lt else if b < a then .gt else .eq
  | .intV _, .strV _ => .lt
  | .strV _, .intV _ => .gt

/-- Lift the value ordering to optional lookup results (a missing column
sorts first; under the spec's invariant every key column is present, so
the `none` cases are never exercised). -/
def compareOptVal : Option Value → Option Value → Ordering
  | none, none => .eq
  | none, some _ => .lt
  | some _, none => .gt
  | some a, some b => compareVals a b

/-- Negate the comparison for a Descending key (§4.6). -/
def flipOrd : SortOrder → Ordering → Ordering
  | .ASC, o => o
  | .DESC, o => o.swap

/-- Modelled from the spec (§4.6): compare two rows by the key list —
evaluate keys in the order supplied, locate the named column in both
rows, compare type-aware, negate for Descending, and on equality proceed
to the next key. -/
def compareRows : List (String × SortOrder) → Row → Row → Ordering
  | [], _, _ => .eq
  | (n, d) :: ks, a, b =>
    match flipOrd d (compareOptVal (lookupVal n a) (lookupVal n b)) with
    | .eq => compareRows ks a b
    | .lt => .lt
    | .gt => .gt

/-- The compound-key comparison as a Boolean "less than or equal". -/
def rowLE (keys : List (String × SortOrder)) (a b : Row) : Bool :=
  compareRows keys a b != Ordering.gt

/-- Modelled from the spec: `merge_sort(rows, sorts)` in src/database.py
is an unimplemented stub (`pass`); §4.6 specifies a stable,
comparison-based merge sort of the buffered rows by the compound key
list, which is modelled here by the standard stable merge sort driven by
`compareRows`. -/
def merge_sort (rows : List Row) (sorts : List (String × SortOrder)) : List Row :=
  rows.mergeSort (rowLE sorts)

/-- A one-column INT schema, as loaded from a header `a:int:8`. -/
def schemaA : List CellMetadata := [⟨"a", .INT, 8, true⟩]

/-- The row a scan over `schemaA` produces for a record with value `n`. -/
def rowIntA (n : Int) : Row := ⟨schemaA, [⟨.intV n⟩]⟩

/-- A two-column INT schema, as loaded from a header `id:int:8 age:int:8`. -/
def schemaB : List CellMetadata := [⟨"id", .INT, 8, true⟩, ⟨"age", .INT, 8, true⟩]

/-- A row over `schemaB` with the given id and age. -/
def rowIdAge (i a : Int) : Row := ⟨schemaB, [⟨.intV i⟩, ⟨.intV a⟩]⟩

/-- A mixed schema, as loaded from a header `id:int:8 name:varchar:16`. -/
def schemaC : List CellMetadata := [⟨"id", .INT, 8, true⟩, ⟨"name", .VARCHAR, 16, true⟩]

/-- The row scanned from the record `1 tom` under `schemaC`. -/
def rowC : Row := ⟨schemaC, [⟨.intV 1⟩, ⟨.strV "tom"⟩]⟩

/-- Limit(offset=1, limit=1) over a scan holding records `10` and `20`. -/
def limitOffsetEx : Op := .limit (.scan [["10"], ["20"]] schemaA) 1 1 0

/-- Limit(offset=0, limit=1) over a scan holding records `1`, `2` and a
non-numeric record `x` under the INT column. -/
def limitErrEx : Op := .limit (.scan [["1"], ["2"], ["x"]] schemaA) 0 1 0

/-- A successful `get_next` preserves the tree depth, never increases the
remaining-row bound, and strictly decreases it when a row is produced. -/
theorem Op.nextF_inv (fuel : Nat) :
    ∀ (op : Op) (r? : Option Row) (op₂ : Op),
      Op.nextF fuel op = .ok (r?, op₂) →
      op₂.depth = op.depth ∧ op₂.rowsLeft ≤ op.rowsLeft ∧
        (∀ r, r? = some r → op₂.rowsLeft < op.rowsLeft) := by
  induction fuel with
  | zero => intro op r? op₂ h; simp [Op.nextF] at h
  | succ fuel ih =>
    intro op r? op₂ h
    cases op with
    | scan lines schema =>
      cases lines with
      | nil =>
        simp only [Op.nextF] at h
        obtain ⟨h1, h2⟩ := by simpa using h
        subst h1; subst h2
        exact ⟨rfl, le_refl _, by simp⟩
      | cons fields rest =>
        cases hs : scanRow schema fields with
        | error e => simp [Op.nextF, hs] at h
        | ok r =>
          obtain ⟨h1, h2⟩ := by simpa [Op.nextF, hs] using h
          subst h1; subst h2
          refine ⟨rfl, by simp [Op.rowsLeft], fun r hr => by simp [Op.rowsLeft]⟩
    | project d cols =>
      cases hd : Op.nextF fuel d with
      | error e => simp [Op.nextF, hd] at h
      | ok p =>
        obtain ⟨rd, d₂⟩ := p
        have hinv := ih d rd d₂ hd
        cases rd with
        | none =>
          obtain ⟨h1, h2⟩ := by simpa [Op.nextF, hd] using h
          subst h1; subst h2
          exact ⟨by simp [Op.depth, hinv.1],
            by simpa [Op.rowsLeft] using hinv.2.1, by simp⟩
        | some rr =>
          cases hp : Project.projectRow cols rr with
          | error e => simp [Op.nextF, hd, hp] at h
          | ok r₂ =>
            obtain ⟨h1, h2⟩ := by simpa [Op.nextF, hd, hp] using h
            subst h1; subst h2
            refine ⟨by simp [Op.depth, hinv.1],
              by simpa [Op.rowsLeft] using hinv.2.1, fun r hr => ?_⟩
            simpa [Op.rowsLeft] using hinv.2.2 rr rfl
    | filter d name v =>
      cases hd : Op.nextF fuel d with
      | error e => simp [Op.nextF, hd] at h
      | ok p =>
        obtain ⟨rd, d₂⟩ := p
        have hinv := ih d rd d₂ hd
        cases rd with
        | none =>
          obtain ⟨h1, h2⟩ := by simpa [Op.nextF, hd] using h
          subst h1; subst h2
          exact ⟨by simp [Op.depth, hinv.1],
            by simpa [Op.rowsLeft] using hinv.2.1, by simp⟩
        | some rr =>
          have hlt : d₂.rowsLeft < d.rowsLeft := hinv.2.2 rr rfl
          cases hf : Filter.filterRow name v rr with
          | error e => simp [Op.nextF, hd, hf] at h
          | ok b =>
            cases b with
            | true =>
              obtain ⟨h1, h2⟩ := by simpa [Op.nextF, hd, hf] using h
              subst h1; subst h2
              refine ⟨by simp [Op.depth, hinv.1], ?_, fun r hr => ?_⟩
              · simp [Op.rowsLeft]; omega
              · simp [Op.rowsLeft]; omega
            | false =>
              have h₂ : Op.nextF fuel (.filter d₂ name v) = .ok (r?, op₂) := by
                simpa [Op.nextF, hd, hf] using h
              have hinv₂ := ih _ _ _ h₂
              refine ⟨?_, ?_, fun r hr => ?_⟩
              · rw [hinv₂.1]; simp [Op.depth, hinv.1]
              · have := hinv₂.2.1; simp [Op.rowsLeft] at this ⊢; omega
              · have := hinv₂.2.1; simp [Op.rowsLeft] at this ⊢; omega
    | limit d o l i =>
      cases hd : Op.nextF fuel d with
      | error e => simp [Op.nextF, hd] at h
      | ok p =>
        obtain ⟨rd, d₂⟩ := p
        have hinv := ih d rd d₂ hd
        cases rd with
        | none =>
          obtain ⟨h1, h2⟩ := by simpa [Op.nextF, hd] using h
          subst h1; subst h2
          exact ⟨by simp [Op.depth, hinv.1],
            by simpa [Op.rowsLeft] using hinv.2.1, by simp⟩
        | some rr =>
          have hlt : d₂.rowsLeft < d.rowsLeft := hinv.2.2 rr rfl
          by_cases hil : i < l
          · obtain ⟨h1, h2⟩ := by simpa [Op.nextF, hd, hil] using h
            subst h1; subst h2
            refine ⟨by simp [Op.depth, hinv.1], ?_, fun r hr => ?_⟩
            · simp [Op.rowsLeft]; omega
            · simp [Op.rowsLeft]; omega
          · obtain ⟨h1, h2⟩ := by simpa [Op.nextF, hd, hil] using h
            subst h1; subst h2
            refine ⟨by simp [Op.depth, hinv.1], ?_, by simp⟩
            simp [Op.rowsLeft]; omega
    | sort extra index =>
      cases hx : extra[index]? with
      | some r =>
        have hidx : index < extra.length := by
          have := List.getElem?_eq_some.mp hx
          exact this.1
        obtain ⟨h1, h2⟩ := by simpa [Op.nextF, hx] using h
        subst h1; subst h2
        refine ⟨rfl, ?_, fun r hr => ?_⟩
        · simp [Op.rowsLeft]; omega
        · simp [Op.rowsLeft]; omega
      | none =>
        obtain ⟨h1, h2⟩ := by simpa [Op.nextF, hx] using h
        subst h1; subst h2
        exact ⟨rfl, le_refl _, by simp⟩

/-- Above the sufficient bound, the fuelled step is fuel-independent. -/
theorem Op.nextF_mono : ∀ (f₁ : Nat) (op : Op), op.fuelNeed ≤ f₁ →
    ∀ f₂, f₁ ≤ f₂ → Op.nextF f₁ op = Op.nextF f₂ op := by
  intro f₁
  induction f₁ using Nat.strong_induction_on with
  | _ f₁ ih =>
    intro op hf f₂ hle
    have hpos : 1 ≤ f₁ := le_trans (by simp [Op.fuelNeed]) hf
    obtain ⟨g₁, rfl⟩ : ∃ g, f₁ = g + 1 := ⟨f₁ - 1, by omega⟩
    obtain ⟨g₂, rfl⟩ : ∃ g, f₂ = g + 1 := ⟨f₂ - 1, by omega⟩
    cases op with
    | scan lines schema => cases lines <;> simp [Op.nextF]
    | sort extra index => simp [Op.nextF]
    | project d cols =>
      have hfd : d.fuelNeed ≤ g₁ := by
        simp [Op.fuelNeed, Op.depth, Op.rowsLeft] at hf ⊢; omega
      have hd : Op.nextF g₁ d = Op.nextF g₂ d :=
        ih g₁ (by omega) d hfd g₂ (by omega)
      simp only [Op.nextF]; rw [hd]
    | limit d o l i =>
      have hfd : d.fuelNeed ≤ g₁ := by
        simp [Op.fuelNeed, Op.depth, Op.rowsLeft] at hf ⊢; omega
      have hd : Op.nextF g₁ d = Op.nextF g₂ d :=
        ih g₁ (by omega) d hfd g₂ (by omega)
      simp only [Op.nextF]; rw [hd]
    | filter d name v =>
      have hfd : d.fuelNeed ≤ g₁ := by
        simp [Op.fuelNeed, Op.depth, Op.rowsLeft] at hf ⊢; omega
      have hd : Op.nextF g₁ d = Op.nextF g₂ d :=
        ih g₁ (by omega) d hfd g₂ (by omega)
      simp only [Op.nextF]
      rw [← hd]
      cases hdd : Op.nextF g₁ d with
      | error e => rfl
      | ok p =>
        obtain ⟨rd, d₂⟩ := p
        cases rd with
        | none => rfl
        | some rr =>
          cases hfr : Filter.filterRow name v rr with
          | error e => simp [hfr]
          | ok b =>
            cases b with
            | true => simp [hfr]
            | false =>
              simp only [hfr]
              have hinv := Op.nextF_inv g₁ d _ _ hdd
              have hfd₂ : (Op.filter d₂ name v).fuelNeed ≤ g₁ := by
                have h1 := hinv.1
                have h2 := hinv.2.2 rr rfl
                simp [Op.fuelNeed, Op.depth, Op.rowsLeft] at hfd h1 h2 ⊢
                omega
              exact ih g₁ (by omega) _ hfd₂ g₂ (by omega)

/-- `Op.next` invariants: depth is preserved, remaining rows do not
increase, and strictly decrease when a row is produced. -/
theorem Op.next_inv {op : Op} {r? : Option Row} {op₂ : Op}
    (h : op.next = .ok (r?, op₂)) :
    op₂.depth = op.depth ∧ op₂.rowsLeft ≤ op.rowsLeft ∧
      (∀ r, r? = some r → op₂.rowsLeft < op.rowsLeft) :=
  Op.nextF_inv _ _ _ _ h

theorem Op.next_eq_nextF {op : Op} {fuel : Nat} (h : op.fuelNeed ≤ fuel) :
    op.next = Op.nextF fuel op :=
  Op.nextF_mono op.fuelNeed op (le_refl _) fuel h

/-- `get_next` on an exhausted scan keeps signalling exhaustion. -/
theorem Op.next_scan_nil (schema : List CellMetadata) :
    (Op.scan [] schema).next = .ok (none, .scan [] schema) := rfl

/-- `get_next` on a scan with a pending record converts it. -/
theorem Op.next_scan_cons (fields : List String) (rest : List (List String))
    (schema : List CellMetadata) :
    (Op.scan (fields :: rest) schema).next =
      match scanRow schema fields with
      | .error e => .error e
      | .ok r => .ok (some r, .scan rest schema) := by
  have hfe : (Op.scan (fields :: rest) schema).fuelNeed = (rest.length + 1) + 1 := by
    simp [Op.fuelNeed, Op.depth, Op.rowsLeft]
  rw [Op.next, hfe]
  rfl

/-- `get_next` on a sort state emits the buffered row at the cursor. -/
theorem Op.next_sort (extra : List Row) (index : Nat) :
    (Op.sort extra index).next =
      match extra[index]? with
      | some r => .ok (some r, .sort extra (index + 1))
      | none => .ok (none, .sort extra index) := by
  have hfe : (Op.sort extra index).fuelNeed = (extra.length - index) + 1 := by
    simp [Op.fuelNeed, Op.depth, Op.rowsLeft]
  rw [Op.next, hfe]
  rfl

/-- `Project.get_next`: pull one row from downstream and transform it. -/
theorem Op.next_project (d : Op) (cols : List String) :
    (Op.project d cols).next =
      match d.next with
      | .error e => .error e
      | .ok (none, d₂) => .ok (none, .project d₂ cols)
      | .ok (some r, d₂) =>
        match Project.projectRow cols r with
        | .error e => .error e
        | .ok r₂ => .ok (some r₂, .project d₂ cols) := by
  have hfe : (Op.project d cols).fuelNeed = d.fuelNeed + 1 := by
    simp [Op.fuelNeed, Op.depth, Op.rowsLeft]; omega
  rw [Op.next, hfe]
  rfl

/-- `Limit.get_next`: always pull one downstream row first; ignore
`offset`; emit the row only while `index < limit`. -/
theorem Op.next_limit (d : Op) (o l i : Int) :
    (Op.limit d o l i).next =
      match d.next with
      | .error e => .error e
      | .ok (some r, d₂) =>
        if i < l then .ok (some r, .limit d₂ o l (i + 1))
        else .ok (none, .limit d₂ o l i)
      | .ok (none, d₂) => .ok (none, .limit d₂ o l i) := by
  have hfe : (Op.limit d o l i).fuelNeed = d.fuelNeed + 1 := by
    simp [Op.fuelNeed, Op.depth, Op.rowsLeft]; omega
  rw [Op.next, hfe]
  rfl

/-- `Filter.get_next`: pull downstream rows, dropping non-matching ones,
until a match or exhaustion; a predicate failure propagates. -/
theorem Op.next_filter (d : Op) (name : String) (v : Value) :
    (Op.filter d name v).next =
      match d.next with
      | .error e => .error e
      | .ok (none, d₂) => .ok (none, .filter d₂ name v)
      | .ok (some r, d₂) =>
        match Filter.filterRow name v r with
        | .error e => .error e
        | .ok true => .ok (some r, .filter d₂ name v)
        | .ok false => (Op.filter d₂ name v).next := by
  have hfe : (Op.filter d name v).fuelNeed = d.fuelNeed + 1 := by
    simp [Op.fuelNeed, Op.depth, Op.rowsLeft]; omega
  have hd : Op.nextF d.fuelNeed d = d.next := (Op.next_eq_nextF (le_refl _)).symm
  rw [Op.next, hfe]
  cases hdd : d.next with
  | error e =>
    have hdd₂ : Op.nextF d.fuelNeed d = .error e := by rw [hd, hdd]
    simp [Op.nextF, hdd₂]
  | ok p =>
    obtain ⟨rd, d₂⟩ := p
    have hdd₂ : Op.nextF d.fuelNeed d = .ok (rd, d₂) := by rw [hd, hdd]
    cases rd with
    | none => simp [Op.nextF, hdd₂]
    | some rr =>
      cases hfr : Filter.filterRow name v rr with
      | error e => simp [Op.nextF, hdd₂, hfr]
      | ok b =>
        cases b with
        | true => simp [Op.nextF, hdd₂, hfr]
        | false =>
          simp only [Op.nextF, hdd₂, hfr]
          have hinv := Op.next_inv hdd
          have hb : (Op.filter d₂ name v).fuelNeed ≤ d.fuelNeed := by
            have h1 := hinv.1
            have h2 := hinv.2.2 rr rfl
            simp [Op.fuelNeed, Op.depth, Op.rowsLeft] at h1 h2 ⊢
            omega
          rw [Op.next_eq_nextF hb]
          simp only [Op.nextF]

/-- Fuel-independence of draining above the remaining-row bound. -/
theorem Op.drainF_mono : ∀ (f₁ : Nat) (op : Op), op.rowsLeft < f₁ →
    ∀ f₂, f₁ ≤ f₂ → Op.drainF f₁ op = Op.drainF f₂ op := by
  intro f₁
  induction f₁ using Nat.strong_induction_on with
  | _ f₁ ih =>
    intro op hf f₂ hle
    obtain ⟨g₁, rfl⟩ : ∃ g, f₁ = g + 1 := ⟨f₁ - 1, by omega⟩
    obtain ⟨g₂, rfl⟩ : ∃ g, f₂ = g + 1 := ⟨f₂ - 1, by omega⟩
    simp only [Op.drainF]
    cases hn : op.next with
    | error e => rfl
    | ok p =>
      obtain ⟨rd, op₂⟩ := p
      cases rd with
      | none => rfl
      | some r =>
        have hinv := Op.next_inv hn
        have hlt : op₂.rowsLeft < op.rowsLeft := hinv.2.2 r rfl
        have hrw : Op.drainF g₁ op₂ = Op.drainF g₂ op₂ :=
          ih g₁ (by omega) op₂ (by omega) g₂ (by omega)
        simp [hrw]

/-- Unfolding equation for `Op.drain`. -/
theorem Op.drain_eq (op : Op) :
    op.drain =
      match op.next with
      | .error e => .error e
      | .ok (none, _) => .ok []
      | .ok (some r, op₂) =>
        match op₂.drain with
        | .error e => .error e
        | .ok rs => .ok (r :: rs) := by
  rw [Op.drain]
  simp only [Op.drainF]
  cases hn : op.next with
  | error e => rfl
  | ok p =>
    obtain ⟨rd, op₂⟩ := p
    cases rd with
    | none => rfl
    | some r =>
      have hinv := Op.next_inv hn
      have hlt : op₂.rowsLeft < op.rowsLeft := hinv.2.2 r rfl
      have hrw : Op.drainF op.rowsLeft op₂ = op₂.drain := by
        rw [Op.drain]
        exact (Op.drainF_mono (op₂.rowsLeft + 1) op₂ (by omega) op.rowsLeft (by omega)).symm
      simp [hrw]

/-- Two states with the same `get_next` behaviour drain identically. -/
theorem Op.drain_congr {x y : Op} (h : x.next = y.next) : x.drain = y.drain := by
  rw [Op.drain_eq, Op.drain_eq, h]

/-- A sort state emits exactly the buffered rows from the cursor on. -/
theorem Op.drain_sort (l : List Row) (i : Nat) : (Op.sort l i).drain = .ok (l.drop i) := by
  rw [Op.drain_eq, Op.next_sort]
  cases hx : l[i]? with
  | none =>
    have hlen : l.length ≤ i := by
      by_contra hc
      exact absurd hx (by simp [List.getElem?_eq_getElem (Nat.lt_of_not_le hc)])
    simp [List.drop_eq_nil_of_le hlen]
  | some r =>
    have hidx : i < l.length := (List.getElem?_eq_some.mp hx).1
    have hr : l[i] = r := by
      have := List.getElem?_eq_getElem hidx
      rw [hx] at this
      exact (Option.some_inj.mp this.symm)
    have hrec := Op.drain_sort l (i + 1)
    simp [hrec, List.drop_eq_getElem_cons hidx, hr]
termination_by l.length - i
decreasing_by
  have : i < l.length := (List.getElem?_eq_some.mp hx).1
  omega

theorem compareVals_eq_iff {a b : Value} : compareVals a b = .eq ↔ a = b := by
  constructor
  · intro h
    cases a with
    | intV x =>
      cases b with
      | intV y =>
        simp only [compareVals] at h
        split_ifs at h with h1 h2
        exact congrArg Value.intV (le_antisymm (not_lt.mp h2) (not_lt.mp h1))
      | strV y => cases h
    | strV x =>
      cases b with
      | intV y => cases h
      | strV y =>
        simp only [compareVals] at h
        split_ifs at h with h1 h2
        exact congrArg Value.strV (le_antisymm (not_lt.mp h2) (not_lt.mp h1))
  · intro h
    cases h
    cases a with
    | intV x =>
      simp only [compareVals]
      rw [if_neg (lt_irrefl x), if_neg (lt_irrefl x)]
    | strV x =>
      simp only [compareVals]
      rw [if_neg (lt_irrefl x), if_neg (lt_irrefl x)]

theorem compareVals_swap (a b : Value) : compareVals b a = (compareVals a b).swap := by
  cases a with
  | intV x =>
    cases b with
    | intV y =>
      simp only [compareVals]
      rcases lt_trichotomy x y with h | h | h
      · rw [if_neg (not_lt.mpr (le_of_lt h)), if_pos h, if_pos h]; rfl
      · subst h
        rw [if_neg (lt_irrefl x), if_neg (lt_irrefl x)]
        rfl
      · rw [if_pos h, if_neg (not_lt.mpr (le_of_lt h)), if_pos h]; rfl
    | strV y => rfl
  | strV x =>
    cases b with
    | intV y => rfl
    | strV y =>
      simp only [compareVals]
      rcases lt_trichotomy x y with h | h | h
      · rw [if_neg (not_lt.mpr (le_of_lt h)), if_pos h, if_pos h]; rfl
      · subst h
        rw [if_neg (lt_irrefl x), if_neg (lt_irrefl x)]
        rfl
      · rw [if_pos h, if_neg (not_lt.mpr (le_of_lt h)), if_pos h]; rfl

theorem compareVals_lt_trans {a b c : Value} (h1 : compareVals a b = .lt)
    (h2 : compareVals b c = .lt) : compareVals a c = .lt := by
  cases a with
  | intV x =>
    cases b with
    | intV y =>
      cases c with
      | intV z =>
        simp only [compareVals] at h1 h2 ⊢
        split_ifs at h1 with ha
        split_ifs at h2 with hc
        rw [if_pos (lt_trans ha hc)]
      | strV z => rfl
    | strV y =>
      cases c with
      | intV z => cases h2
      | strV z => rfl
  | strV x =>
    cases b with
    | intV y => cases h1
    | strV y =>
      cases c with
      | intV z => cases h2
      | strV z =>
        simp only [compareVals] at h1 h2 ⊢
        split_ifs at h1 with ha
        split_ifs at h2 with hc
        rw [if_pos (lt_trans ha hc)]

theorem compareOptVal_eq_iff {a b : Option Value} : compareOptVal a b = .eq ↔ a = b := by
  cases a with
  | none =>
    cases b with
    | none => simp [compareOptVal]
    | some y => simp [compareOptVal]
  | some x =>
    cases b with
    | none => simp [compareOptVal]
    | some y =>
      simp only [compareOptVal, Option.some.injEq]
      exact compareVals_eq_iff

theorem compareOptVal_swap (a b : Option Value) :
    compareOptVal b a = (compareOptVal a b).swap := by
  cases a with
  | none => cases b with
    | none => rfl
    | some y => rfl
  | some x => cases b with
    | none => rfl
    | some y => exact compareVals_swap x y

theorem compareOptVal_lt_trans {a b c : Option Value} (h1 : compareOptVal a b = .lt)
    (h2 : compareOptVal b c = .lt) : compareOptVal a c = .lt := by
  cases a with
  | none =>
    cases b with
    | none => exact h2
    | some y =>
      cases c with
      | none => simp [compareOptVal] at h2
      | some z => rfl
  | some x =>
    cases b with
    | none => simp [compareOptVal] at h1
    | some y =>
      cases c with
      | none => simp [compareOptVal] at h2
      | some z => exact compareVals_lt_trans h1 h2

theorem compareOptVal_gt_trans {a b c : Option Value} (h1 : compareOptVal a b = .gt)
    (h2 : compareOptVal b c = .gt) : compareOptVal a c = .gt := by
  have h1' : compareOptVal b a = .lt := by rw [compareOptVal_swap, h1]; rfl
  have h2' : compareOptVal c b = .lt := by rw [compareOptVal_swap, h2]; rfl
  have := compareOptVal_lt_trans h2' h1'
  rw [compareOptVal_swap, this]
  rfl

theorem flipOrd_eq {d : SortOrder} : flipOrd d .eq = .eq := by
  cases d <;> rfl

theorem compareRows_swap (ks : List (String × SortOrder)) (a b : Row) :
    compareRows ks b a = (compareRows ks a b).swap := by
  induction ks with
  | nil => rfl
  | cons k ks ih =>
    obtain ⟨n, d⟩ := k
    simp only [compareRows]
    rw [compareOptVal_swap (lookupVal n a) (lookupVal n b)]
    cases hc : compareOptVal (lookupVal n a) (lookupVal n b) <;>
      cases d <;> simp [flipOrd, Ordering.swap, ih]

theorem compareRows_trans {ks : List (String × SortOrder)} {a b c : Row}
    (h1 : compareRows ks a b ≠ .gt) (h2 : compareRows ks b c ≠ .gt) :
    compareRows ks a c ≠ .gt := by
  induction ks generalizing a b c with
  | nil => simp [compareRows]
  | cons k ks ih =>
    obtain ⟨n, d⟩ := k
    cases hxy : compareOptVal (lookupVal n a) (lookupVal n b) with
    | eq =>
      have hv : lookupVal n a = lookupVal n b := compareOptVal_eq_iff.mp hxy
      cases hyz : compareOptVal (lookupVal n b) (lookupVal n c) with
      | eq =>
        have hv₂ : lookupVal n b = lookupVal n c := compareOptVal_eq_iff.mp hyz
        have h1' : compareRows ks a b ≠ .gt := by
          simpa [compareRows, hxy, flipOrd_eq] using h1
        have h2' : compareRows ks b c ≠ .gt := by
          simpa [compareRows, hyz, flipOrd_eq] using h2
        simp [compareRows, hv, hyz, flipOrd_eq]
        exact ih h1' h2'
      | lt =>
        cases d <;> simp_all [compareRows, flipOrd, hv, hyz, Ordering.swap]
      | gt =>
        cases d <;> simp_all [compareRows, flipOrd, hv, hyz, Ordering.swap]
    | lt =>
      cases d with
      | ASC =>
        cases hyz : compareOptVal (lookupVal n b) (lookupVal n c) with
        | eq =>
          have hv₂ : lookupVal n b = lookupVal n c := compareOptVal_eq_iff.mp hyz
          simp [compareRows, flipOrd, ← hv₂, hxy]
        | lt => simp [compareRows, flipOrd, compareOptVal_lt_trans hxy hyz]
        | gt => simp_all [compareRows, flipOrd, hyz]
      | DESC => simp_all [compareRows, flipOrd, hxy, Ordering.swap]
    | gt =>
      cases d with
      | ASC => simp_all [compareRows, flipOrd, hxy]
      | DESC =>
        cases hyz : compareOptVal (lookupVal n b) (lookupVal n c) with
        | eq =>
          have hv₂ : lookupVal n b = lookupVal n c := compareOptVal_eq_iff.mp hyz
          simp [compareRows, flipOrd, ← hv₂, hxy, Ordering.swap]
        | gt => simp [compareRows, flipOrd, compareOptVal_gt_trans hxy hyz, Ordering.swap]
        | lt => simp_all [compareRows, flipOrd, hyz, Ordering.swap]

theorem rowLE_iff {ks : List (String × SortOrder)} {a b : Row} :
    rowLE ks a b = true ↔ compareRows ks a b ≠ .gt := by
  cases hc : compareRows ks a b <;> simp [rowLE, hc] <;> decide

theorem rowLE_trans (ks : List (String × SortOrder)) (a b c : Row)
    (h1 : rowLE ks a b) (h2 : rowLE ks b c) : rowLE ks a c :=
  rowLE_iff.mpr (compareRows_trans (rowLE_iff.mp h1) (rowLE_iff.mp h2))

theorem rowLE_total (ks : List (String × SortOrder)) (a b : Row) :
    rowLE ks a b || rowLE ks b a := by
  rcases hc : compareRows ks a b with h | h | h <;>
    simp [rowLE, hc, compareRows_swap ks a b, Ordering.swap] <;> decide

/-- After a `get_next` that signalled exhaustion, the next call cannot
produce a row: it either signals exhaustion again or raises an error
from pulling upstream. Strong induction on the remaining-row bound with
a nested structural induction on the operator. -/
theorem Op.next_none_quiet : ∀ (n : Nat) (op : Op), op.rowsLeft ≤ n →
    ∀ (op₁ : Op), op.next = .ok (none, op₁) →
    ∀ (r? : Option Row) (op₂ : Op), op₁.next = .ok (r?, op₂) → r? = none := by
  intro n
  induction n using Nat.strong_induction_on with
  | _ n ihn =>
    intro op
    induction op with
    | scan lines schema =>
      intro _ op₁ h r? op₂ h₂
      cases lines with
      | nil =>
        rw [Op.next_scan_nil] at h
        simp only [Except.ok.injEq, Prod.mk.injEq] at h
        obtain ⟨-, h2⟩ := h
        subst h2
        rw [Op.next_scan_nil] at h₂
        simp only [Except.ok.injEq, Prod.mk.injEq] at h₂
        exact h₂.1.symm
      | cons fields rest =>
        rw [Op.next_scan_cons] at h
        cases hs : scanRow schema fields with
        | error e => simp only [hs] at h; cases h
        | ok r => simp only [hs] at h; simp at h
    | sort extra index =>
      intro _ op₁ h r? op₂ h₂
      rw [Op.next_sort] at h
      cases hx : extra[index]? with
      | some r => simp only [hx] at h; simp at h
      | none =>
        simp only [hx] at h
        simp only [Except.ok.injEq, Prod.mk.injEq] at h
        obtain ⟨-, h2⟩ := h
        subst h2
        rw [Op.next_sort] at h₂
        simp only [hx] at h₂
        simp only [Except.ok.injEq, Prod.mk.injEq] at h₂
        exact h₂.1.symm
    | project d cols ihd =>
      intro hle op₁ h r? op₂ h₂
      rw [Op.next_project] at h
      cases hd : d.next with
      | error e => simp only [hd] at h; cases h
      | ok p =>
        obtain ⟨rd, d₂⟩ := p
        cases rd with
        | some r =>
          simp only [hd] at h
          cases hp : Project.projectRow cols r with
          | error e => simp only [hp] at h; cases h
          | ok r₂ => simp only [hp] at h; simp at h
        | none =>
          simp only [hd] at h
          simp only [Except.ok.injEq, Prod.mk.injEq] at h
          obtain ⟨-, h2⟩ := h
          subst h2
          rw [Op.next_project] at h₂
          cases hd₂ : d₂.next with
          | error e => simp only [hd₂] at h₂; cases h₂
          | ok q =>
            obtain ⟨rd₂, d₃⟩ := q
            cases rd₂ with
            | none =>
              simp only [hd₂] at h₂
              simp only [Except.ok.injEq, Prod.mk.injEq] at h₂
              exact h₂.1.symm
            | some r₂ =>
              have hno : (some r₂ : Option Row) = none :=
                ihd (by simpa [Op.rowsLeft] using hle) d₂ hd (some r₂) d₃ hd₂
              cases hno
    | filter d name v ihd =>
      intro hle op₁ h r? op₂ h₂
      rw [Op.next_filter] at h
      cases hd : d.next with
      | error e => simp only [hd] at h; cases h
      | ok p =>
        obtain ⟨rd, d₂⟩ := p
        cases rd with
        | none =>
          simp only [hd] at h
          simp only [Except.ok.injEq, Prod.mk.injEq] at h
          obtain ⟨-, h2⟩ := h
          subst h2
          rw [Op.next_filter] at h₂
          cases hd₂ : d₂.next with
          | error e => simp only [hd₂] at h₂; cases h₂
          | ok q =>
            obtain ⟨rd₂, d₃⟩ := q
            cases rd₂ with
            | none =>
              simp only [hd₂] at h₂
              simp only [Except.ok.injEq, Prod.mk.injEq] at h₂
              exact h₂.1.symm
            | some r₂ =>
              have hno : (some r₂ : Option Row) = none :=
                ihd (by simpa [Op.rowsLeft] using hle) d₂ hd (some r₂) d₃ hd₂
              cases hno
        | some r =>
          simp only [hd] at h
          cases hf : Filter.filterRow name v r with
          | error e => simp only [hf] at h; cases h
          | ok b =>
            cases b with
            | true => simp only [hf] at h; simp at h
            | false =>
              simp only [hf] at h
              have hlt : d₂.rowsLeft < d.rowsLeft := (Op.next_inv hd).2.2 r rfl
              have hlen : d.rowsLeft ≤ n := by simpa [Op.rowsLeft] using hle
              exact ihn d₂.rowsLeft (by omega) (Op.filter d₂ name v)
                (by simp [Op.rowsLeft]) op₁ h r? op₂ h₂
    | limit d o l i ihd =>
      intro hle op₁ h r? op₂ h₂
      rw [Op.next_limit] at h
      cases hd : d.next with
      | error e => simp only [hd] at h; cases h
      | ok p =>
        obtain ⟨rd, d₂⟩ := p
        cases rd with
        | some r =>
          simp only [hd] at h
          by_cases hil : i < l
          · rw [if_pos hil] at h; simp at h
          · rw [if_neg hil] at h
            simp only [Except.ok.injEq, Prod.mk.injEq] at h
            obtain ⟨-, h2⟩ := h
            subst h2
            rw [Op.next_limit] at h₂
            cases hd₂ : d₂.next with
            | error e => simp only [hd₂] at h₂; cases h₂
            | ok q =>
              obtain ⟨rd₂, d₃⟩ := q
              cases rd₂ with
              | none =>
                simp only [hd₂] at h₂
                simp only [Except.ok.injEq, Prod.mk.injEq] at h₂
                exact h₂.1.symm
              | some r₂ =>
                simp only [hd₂] at h₂
                rw [if_neg hil] at h₂
                simp only [Except.ok.injEq, Prod.mk.injEq] at h₂
                exact h₂.1.symm
        | none =>
          simp only [hd] at h
          simp only [Except.ok.injEq, Prod.mk.injEq] at h
          obtain ⟨-, h2⟩ := h
          subst h2
          rw [Op.next_limit] at h₂
          cases hd₂ : d₂.next with
          | error e => simp only [hd₂] at h₂; cases h₂
          | ok q =>
            obtain ⟨rd₂, d₃⟩ := q
            cases rd₂ with
            | none =>
              simp only [hd₂] at h₂
              simp only [Except.ok.injEq, Prod.mk.injEq] at h₂
              exact h₂.1.symm
            | some r₂ =>
              have hno : (some r₂ : Option Row) = none :=
                ihd (by simpa [Op.rowsLeft] using hle) d₂ hd (some r₂) d₃ hd₂
              cases hno

/-- One-step corollary of `Op.next_none_quiet`. -/
theorem Op.next_none_step (op op₁ : Op) (h : op.next = .ok (none, op₁))
    (r? : Option Row) (op₂ : Op) (h₂ : op₁.next = .ok (r?, op₂)) : r? = none :=
  Op.next_none_quiet op.rowsLeft op (le_refl _) op₁ h r? op₂ h₂

/-- C2: for every upstream row sequence and key list, the Sort operator's
emitted sequence — the spec-modelled `merge_sort` of the buffered
upstream rows, emitted verbatim by `get_next` (the source's `merge_sort`
is an unimplemented stub) — is a permutation of the upstream rows; every
adjacent emitted pair is non-decreasing under the compound key comparison
(which negates Descending keys, so a Descending key is non-increasing);
and rows whose compound keys compare equal on every key keep their
relative upstream order (stability). -/
theorem claim_C2_sort_correct_stable (rowsU : List Row)
    (keys : List (String × SortOrder)) :
    Op.drain (Op.sort (merge_sort rowsU keys) 0) = .ok (merge_sort rowsU keys) ∧
    (merge_sort rowsU keys).Perm rowsU ∧
    List.Chain' (fun a b => compareRows keys a b ≠ .gt) (merge_sort rowsU keys) ∧
    (∀ sub : List Row, sub.Sublist rowsU →
      sub.Pairwise (fun a b => compareRows keys a b = .eq) →
      sub.Sublist (merge_sort rowsU keys)) := by
  refine ⟨?_, ?_, ?_, ?_⟩
  · rw [Op.drain_sort]
    simp
  · exact List.mergeSort_perm rowsU (rowLE keys)
  · have hs := List.sorted_mergeSort (rowLE_trans keys) (rowLE_total keys) rowsU
    exact (hs.imp (fun h => rowLE_iff.mp h)).chain'
  · intro sub hsub hpw
    have hpw2 : sub.Pairwise (fun a b => rowLE keys a b = true) :=
      hpw.imp (fun h => rowLE_iff.mpr (fun hg => by rw [h] at hg; cases hg))
    exact List.sublist_mergeSort (rowLE_trans keys) (rowLE_total keys) hpw2 hsub

/-- Witness for C2 at a concrete input: rows (id 1, age 18), (id 2,
age 22), (id 3, age 18) sorted by age Descending; the tied rows 1 and 3
form an equal-key subsequence and keep their relative order in the
output. -/
theorem claim_C2_sort_correct_stable_witness :
    ([rowIdAge 1 18, rowIdAge 3 18].Sublist
        [rowIdAge 1 18, rowIdAge 2 22, rowIdAge 3 18] ∧
      [rowIdAge 1 18, rowIdAge 3 18].Pairwise
        (fun a b => compareRows [("age", SortOrder.DESC)] a b = .eq)) ∧
    [rowIdAge 1 18, rowIdAge 3 18].Sublist
      (merge_sort [rowIdAge 1 18, rowIdAge 2 22, rowIdAge 3 18]
        [("age", SortOrder.DESC)]) :=
  ⟨⟨by decide, by decide⟩,
    (claim_C2_sort_correct_stable [rowIdAge 1 18, rowIdAge 2 22, rowIdAge 3 18]
        [("age", SortOrder.DESC)]).2.2.2
      [rowIdAge 1 18, rowIdAge 3 18] (by decide) (by decide)⟩

/-- The field-conversion loop pairs exactly one metadata entry with each
converted cell. -/
theorem convertFields_len : ∀ (s : List CellMetadata) (fs : List String)
    (ms : List CellMetadata) (cs : List Cell),
    convertFields s fs = .ok (ms, cs) → ms.length = cs.length := by
  intro s fs
  induction fs generalizing s with
  | nil =>
    intro ms cs h
    cases s with
    | nil =>
      simp only [convertFields, Except.ok.injEq, Prod.mk.injEq] at h
      obtain ⟨h1, h2⟩ := h
      subst h1; subst h2; rfl
    | cons m ms₂ =>
      simp only [convertFields, Except.ok.injEq, Prod.mk.injEq] at h
      obtain ⟨h1, h2⟩ := h
      subst h1; subst h2; rfl
  | cons f fs ih =>
    intro ms cs h
    cases s with
    | nil => simp [convertFields] at h
    | cons m ms₂ =>
      simp only [convertFields] at h
      cases hc : TableScan.convert f m with
      | error e => simp only [hc] at h; cases h
      | ok v =>
        simp only [hc] at h
        cases hr : convertFields ms₂ fs with
        | error e => simp only [hr] at h; cases h
        | ok p =>
          obtain ⟨rm, rc⟩ := p
          simp only [hr, Except.ok.injEq, Prod.mk.injEq] at h
          obtain ⟨h1, h2⟩ := h
          subst h1; subst h2
          simp [ih ms₂ rm rc hr]

/-- A row built by the scan satisfies the row invariant. -/
theorem scanRow_wf {schema : List CellMetadata} {fields : List String} {r : Row}
    (h : scanRow schema fields = .ok r) : WFRow r := by
  unfold scanRow at h
  cases hc : convertFields schema fields with
  | error e => rw [hc] at h; cases h
  | ok p =>
    obtain ⟨ms, cs⟩ := p
    rw [hc] at h
    simp only [Except.ok.injEq] at h
    subst h
    exact convertFields_len schema fields ms cs hc

/-- The projection loop's output: one metadata/cell pair per requested
column, in the requested order, each obtained from the name dict. -/
theorem projectCols_spec : ∀ (pairs : List (CellMetadata × Cell)) (cols : List String)
    (ms : List CellMetadata) (cs : List Cell),
    projectCols pairs cols = .ok (ms, cs) →
    ms.length = cols.length ∧ cs.length = cols.length ∧
      ∀ i, i < cols.length → ∃ c mc, cols[i]? = some c ∧
        lastLookup pairs c = some mc ∧ ms[i]? = some mc.1 ∧ cs[i]? = some mc.2 := by
  intro pairs cols
  induction cols with
  | nil =>
    intro ms cs h
    simp only [projectCols, Except.ok.injEq, Prod.mk.injEq] at h
    obtain ⟨h1, h2⟩ := h
    subst h1; subst h2
    exact ⟨rfl, rfl, fun i hi => absurd hi (by simp)⟩
  | cons c cols ih =>
    intro ms cs h
    simp only [projectCols] at h
    cases hl : lastLookup pairs c with
    | none => simp only [hl] at h; cases h
    | some mc =>
      simp only [hl] at h
      cases hr : projectCols pairs cols with
      | error e => simp only [hr] at h; cases h
      | ok p =>
        obtain ⟨rm, rc⟩ := p
        simp only [hr, Except.ok.injEq, Prod.mk.injEq] at h
        obtain ⟨h1, h2⟩ := h
        subst h1; subst h2
        obtain ⟨ih1, ih2, ih3⟩ := ih rm rc hr
        refine ⟨by simp [ih1], by simp [ih2], fun i hi => ?_⟩
        cases i with
        | zero => exact ⟨c, mc, by simp, hl, by simp, by simp⟩
        | succ j =>
          obtain ⟨c₂, mc₂, hc₂, hl₂, hm₂, hcell₂⟩ := ih3 j (by simpa using hi)
          exact ⟨c₂, mc₂, by simpa using hc₂, hl₂, by simpa using hm₂,
            by simpa using hcell₂⟩

/-- A row built by Project satisfies the row invariant. -/
theorem projectRow_wf {cols : List String} {row out : Row}
    (h : Project.projectRow cols row = .ok out) : WFRow out := by
  unfold Project.projectRow at h
  by_cases hlt : row.cells.length < row.metas.length
  · rw [if_pos hlt] at h; cases h
  · rw [if_neg hlt] at h
    cases hp : projectCols (row.metas.zip row.cells) cols with
    | error e => simp only [hp] at h; cases h
    | ok p =>
      obtain ⟨ms, cs⟩ := p
      simp only [hp, Except.ok.injEq] at h
      subst h
      have hs := projectCols_spec _ _ _ _ hp
      show ms.length = cs.length
      rw [hs.1, hs.2.1]

/-- `get_next` preserves operator well-formedness and only emits rows
satisfying the row invariant (auxiliary, fuelled by the remaining-row
bound for the Filter pull loop). -/
theorem Op.next_wf_aux : ∀ (n : Nat) (op : Op), op.rowsLeft ≤ n → op.WF →
    ∀ (r? : Option Row) (op₂ : Op), op.next = .ok (r?, op₂) →
      op₂.WF ∧ ∀ r, r? = some r → WFRow r := by
  intro n
  induction n using Nat.strong_induction_on with
  | _ n ihn =>
    intro op
    induction op with
    | scan lines schema =>
      intro _ _ r? op₂ h
      cases lines with
      | nil =>
        rw [Op.next_scan_nil] at h
        simp only [Except.ok.injEq, Prod.mk.injEq] at h
        obtain ⟨h1, h2⟩ := h
        subst h2
        exact ⟨trivial, fun r hr => by rw [← h1] at hr; cases hr⟩
      | cons fields rest =>
        rw [Op.next_scan_cons] at h
        cases hs : scanRow schema fields with
        | error e => simp only [hs] at h; cases h
        | ok r =>
          simp only [hs, Except.ok.injEq, Prod.mk.injEq] at h
          obtain ⟨h1, h2⟩ := h
          subst h2
          refine ⟨trivial, fun r₂ hr => ?_⟩
          rw [← h1] at hr
          cases hr
          exact scanRow_wf hs
    | sort extra index =>
      intro _ hwf r? op₂ h
      rw [Op.next_sort] at h
      cases hx : extra[index]? with
      | some r =>
        simp only [hx, Except.ok.injEq, Prod.mk.injEq] at h
        obtain ⟨h1, h2⟩ := h
        subst h2
        refine ⟨hwf, fun r₂ hr => ?_⟩
        rw [← h1] at hr
        cases hr
        exact hwf r (List.getElem?_mem hx)
      | none =>
        simp only [hx, Except.ok.injEq, Prod.mk.injEq] at h
        obtain ⟨h1, h2⟩ := h
        subst h2
        exact ⟨hwf, fun r hr => by rw [← h1] at hr; cases hr⟩
    | project d cols ihd =>
      intro hle hwf r? op₂ h
      rw [Op.next_project] at h
      cases hd : d.next with
      | error e => simp only [hd] at h; cases h
      | ok p =>
        obtain ⟨rd, d₂⟩ := p
        have hsub := ihd (by simpa [Op.rowsLeft] using hle) hwf rd d₂ hd
        cases rd with
        | none =>
          simp only [hd, Except.ok.injEq, Prod.mk.injEq] at h
          obtain ⟨h1, h2⟩ := h
          subst h2
          exact ⟨hsub.1, fun r hr => by rw [← h1] at hr; cases hr⟩
        | some r =>
          simp only [hd] at h
          cases hp : Project.projectRow cols r with
          | error e => simp only [hp] at h; cases h
          | ok r₂ =>
            simp only [hp, Except.ok.injEq, Prod.mk.injEq] at h
            obtain ⟨h1, h2⟩ := h
            subst h2
            refine ⟨hsub.1, fun r₃ hr => ?_⟩
            rw [← h1] at hr
            cases hr
            exact projectRow_wf hp
    | filter d name v ihd =>
      intro hle hwf r? op₂ h
      rw [Op.next_filter] at h
      cases hd : d.next with
      | error e => simp only [hd] at h; cases h
      | ok p =>
        obtain ⟨rd, d₂⟩ := p
        have hsub := ihd (by simpa [Op.rowsLeft] using hle) hwf rd d₂ hd
        cases rd with
        | none =>
          simp only [hd, Except.ok.injEq, Prod.mk.injEq] at h
          obtain ⟨h1, h2⟩ := h
          subst h2
          exact ⟨hsub.1, fun r hr => by rw [← h1] at hr; cases hr⟩
        | some r =>
          simp only [hd] at h
          cases hf : Filter.filterRow name v r with
          | error e => simp only [hf] at h; cases h
          | ok b =>
            cases b with
            | true =>
              simp only [hf, Except.ok.injEq, Prod.mk.injEq] at h
              obtain ⟨h1, h2⟩ := h
              subst h2
              refine ⟨hsub.1, fun r₂ hr => ?_⟩
              rw [← h1] at hr
              cases hr
              exact hsub.2 r rfl
            | false =>
              simp only [hf] at h
              have hlt : d₂.rowsLeft < d.rowsLeft := (Op.next_inv hd).2.2 r rfl
              have hlen : d.rowsLeft ≤ n := by simpa [Op.rowsLeft] using hle
              exact ihn d₂.rowsLeft (by omega) (Op.filter d₂ name v)
                (by simp [Op.rowsLeft]) hsub.1 r? op₂ h
    | limit d o l i ihd =>
      intro hle hwf r? op₂ h
      rw [Op.next_limit] at h
      cases hd : d.next with
      | error e => simp only [hd] at h; cases h
      | ok p =>
        obtain ⟨rd, d₂⟩ := p
        have hsub := ihd (by simpa [Op.rowsLeft] using hle) hwf rd d₂ hd
        cases rd with
        | none =>
          simp only [hd, Except.ok.injEq, Prod.mk.injEq] at h
          obtain ⟨h1, h2⟩ := h
          subst h2
          exact ⟨hsub.1, fun r hr => by rw [← h1] at hr; cases hr⟩
        | some r =>
          simp only [hd] at h
          by_cases hil : i < l
          · rw [if_pos hil] at h
            simp only [Except.ok.injEq, Prod.mk.injEq] at h
            obtain ⟨h1, h2⟩ := h
            subst h2
            refine ⟨hsub.1, fun r₂ hr => ?_⟩
            rw [← h1] at hr
            cases hr
            exact hsub.2 r rfl
          · rw [if_neg hil] at h
            simp only [Except.ok.injEq, Prod.mk.injEq] at h
            obtain ⟨h1, h2⟩ := h
            subst h2
            exact ⟨hsub.1, fun r₂ hr => by rw [← h1] at hr; cases hr⟩

/-- C8: every row emitted by any operator's `get_next` satisfies the row
invariant `len(metas) = len(cells)` (position `i` metadata paired with
position `i` cell), and every operator's step preserves the invariant on
operator states (for sort states, on all buffered rows). -/
theorem claim_C8_row_invariant (op : Op) (hwf : op.WF)
    (r? : Option Row) (op₂ : Op) (h : op.next = .ok (r?, op₂)) :
    op₂.WF ∧ ∀ r, r? = some r → WFRow r :=
  Op.next_wf_aux op.rowsLeft op (le_refl _) hwf r? op₂ h

/-- Witness for C8 at a concrete input: a sort state over one well-formed
row emits a row satisfying the invariant. -/
theorem claim_C8_row_invariant_witness :
    (Op.sort [rowIntA 5] 0).WF ∧ WFRow (rowIntA 5) := by
  have hwf : (Op.sort [rowIntA 5] 0).WF := by
    intro r hr
    rw [List.mem_singleton] at hr
    subst hr
    decide
  exact ⟨hwf, (claim_C8_row_invariant (Op.sort [rowIntA 5] 0) hwf (some (rowIntA 5))
    (Op.sort [rowIntA 5] 1) (by decide)).2 (rowIntA 5) rfl⟩

/-- Python `int()` failure surfaces as a ConversionError naming the
offending field text. -/
theorem parsePyInt_error {f : String} {e : DbError} (h : parsePyInt f = .error e) :
    e = .conversionError f := by
  unfold parsePyInt at h
  split at h <;> split_ifs at h <;> simp_all

/-- A successful conversion: INT fields parse to an integer value, all
other declared types take the field text verbatim. -/
theorem convert_ok {f : String} {m : CellMetadata} {v : Value}
    (h : TableScan.convert f m = .ok v) :
    (m.type = .INT → ∃ n, parsePyInt f = .ok n ∧ v = .intV n) ∧
    (m.type ≠ .INT → v = .strV f) := by
  unfold TableScan.convert at h
  cases hm : m.type with
  | INT =>
    rw [hm] at h
    cases hp : parsePyInt f with
    | error e => simp only [hp] at h; cases h
    | ok n =>
      simp only [hp, Except.ok.injEq] at h
      subst h
      exact ⟨fun _ => ⟨n, rfl, rfl⟩, fun hne => absurd rfl hne⟩
  | CHAR =>
    rw [hm] at h
    simp only [Except.ok.injEq] at h
    subst h
    exact ⟨(fun hc => nomatch hc), fun _ => rfl⟩
  | VARCHAR =>
    rw [hm] at h
    simp only [Except.ok.injEq] at h
    subst h
    exact ⟨(fun hc => nomatch hc), fun _ => rfl⟩
  | DATETIME =>
    rw [hm] at h
    simp only [Except.ok.injEq] at h
    subst h
    exact ⟨(fun hc => nomatch hc), fun _ => rfl⟩

/-- A failing conversion comes from an INT column whose field text does
not parse, and is the ConversionError for that field. -/
theorem convert_error {f : String} {m : CellMetadata} {e : DbError}
    (h : TableScan.convert f m = .error e) :
    m.type = .INT ∧ e = .conversionError f ∧
      parsePyInt f = .error (.conversionError f) := by
  unfold TableScan.convert at h
  cases hm : m.type with
  | INT =>
    rw [hm] at h
    cases hp : parsePyInt f with
    | error e₂ =>
      simp only [hp] at h
      cases h
      have he := parsePyInt_error hp
      exact ⟨rfl, he, by rw [he]⟩
    | ok n => simp only [hp] at h; cases h
  | CHAR => rw [hm] at h; cases h
  | VARCHAR => rw [hm] at h; cases h
  | DATETIME => rw [hm] at h; cases h

/-- Pointwise description of a successful field-conversion loop: the used
metadata is the schema prefix, and cell `i` is the conversion of field
`i` under column `i`. -/
theorem convertFields_ok_spec : ∀ (s : List CellMetadata) (fs : List String)
    (ms : List CellMetadata) (cs : List Cell),
    convertFields s fs = .ok (ms, cs) →
    ms = s.take fs.length ∧ cs.length = fs.length ∧
      ∀ i, i < fs.length → ∃ f m c, fs[i]? = some f ∧ s[i]? = some m ∧
        cs[i]? = some c ∧ TableScan.convert f m = .ok c.value := by
  intro s fs
  induction fs generalizing s with
  | nil =>
    intro ms cs h
    cases s <;>
      · simp only [convertFields, Except.ok.injEq, Prod.mk.injEq] at h
        obtain ⟨h1, h2⟩ := h
        subst h1; subst h2
        exact ⟨by simp, rfl, fun i hi => absurd hi (by simp)⟩
  | cons f fs ih =>
    intro ms cs h
    cases s with
    | nil => simp [convertFields] at h
    | cons m ms₂ =>
      simp only [convertFields] at h
      cases hc : TableScan.convert f m with
      | error e => simp only [hc] at h; cases h
      | ok v =>
        simp only [hc] at h
        cases hr : convertFields ms₂ fs with
        | error e => simp only [hr] at h; cases h
        | ok p =>
          obtain ⟨rm, rc⟩ := p
          simp only [hr, Except.ok.injEq, Prod.mk.injEq] at h
          obtain ⟨h1, h2⟩ := h
          subst h1; subst h2
          obtain ⟨ih1, ih2, ih3⟩ := ih ms₂ rm rc hr
          refine ⟨by simp [ih1], by simp [ih2], fun i hi => ?_⟩
          cases i with
          | zero => exact ⟨f, m, ⟨v⟩, by simp, by simp, by simp, hc⟩
          | succ j =>
            obtain ⟨f₂, m₂, c₂, hf₂, hm₂, hc₂, hcv₂⟩ := ih3 j (by simpa using hi)
            exact ⟨f₂, m₂, c₂, by simpa using hf₂, by simpa using hm₂,
              by simpa using hc₂, hcv₂⟩

/-- A failing field-conversion loop (on a record no longer than the
schema) fails at some field whose conversion fails. -/
theorem convertFields_err_spec : ∀ (s : List CellMetadata) (fs : List String)
    (e : DbError), fs.length ≤ s.length → convertFields s fs = .error e →
    ∃ (i : Nat) (f : String) (m : CellMetadata),
      fs[i]? = some f ∧ s[i]? = some m ∧ TableScan.convert f m = .error e := by
  intro s fs
  induction fs generalizing s with
  | nil => intro e hlen h; cases s <;> simp [convertFields] at h
  | cons f fs ih =>
    intro e hlen h
    cases s with
    | nil => simp at hlen
    | cons m ms₂ =>
      simp only [convertFields] at h
      cases hc : TableScan.convert f m with
      | error e₂ =>
        simp only [hc] at h
        cases h
        exact ⟨0, f, m, by simp, by simp, hc⟩
      | ok v =>
        simp only [hc] at h
        cases hr : convertFields ms₂ fs with
        | ok p =>
          obtain ⟨rm, rc⟩ := p
          simp only [hr] at h
          cases h
        | error e₂ =>
          simp only [hr] at h
          cases h
          obtain ⟨j, f₂, m₂, hf₂, hm₂, hc₂⟩ := ih ms₂ e (by simpa using hlen) hr
          exact ⟨j + 1, f₂, m₂, by simpa using hf₂, by simpa using hm₂, hc₂⟩

/-- C5: the scan's `get_next` on a data record (with at most as many
fields as declared columns) converts each field per its column's declared
DataType — an INT field parses as a signed integer and a non-numeric INT
field fails with ConversionError, while CHAR/VARCHAR/DATETIME fields are
taken verbatim as text — and the returned Row pairs the schema's metadata
with the converted cells, positionally. -/
theorem claim_C5_scan_conversion (schema : List CellMetadata) (fields : List String)
    (rest : List (List String)) (hlen : fields.length ≤ schema.length) :
    (∀ r op₂, (Op.scan (fields :: rest) schema).next = .ok (some r, op₂) →
      op₂ = .scan rest schema ∧ r.metas = schema.take fields.length ∧
      r.cells.length = fields.length ∧
      (∀ i, i < fields.length → ∃ f m c, fields[i]? = some f ∧ schema[i]? = some m ∧
        r.cells[i]? = some c ∧ TableScan.convert f m = .ok c.value ∧
        (m.type = .INT → ∃ n, parsePyInt f = .ok n ∧ c.value = .intV n) ∧
        (m.type ≠ .INT → c.value = .strV f))) ∧
    (∀ op₂, (Op.scan (fields :: rest) schema).next ≠ .ok (none, op₂)) ∧
    (∀ e, (Op.scan (fields :: rest) schema).next = .error e →
      ∃ (i : Nat) (f : String) (m : CellMetadata),
        fields[i]? = some f ∧ schema[i]? = some m ∧ m.type = .INT ∧
        e = .conversionError f ∧ parsePyInt f = .error (.conversionError f)) := by
  refine ⟨?_, ?_, ?_⟩
  · intro r op₂ h
    rw [Op.next_scan_cons] at h
    cases hs : scanRow schema fields with
    | error e => simp only [hs] at h; cases h
    | ok r₂ =>
      simp only [hs, Except.ok.injEq, Prod.mk.injEq] at h
      obtain ⟨h1, h2⟩ := h
      obtain rfl := Option.some_inj.mp h1
      subst h2
      unfold scanRow at hs
      cases hcf : convertFields schema fields with
      | error e => rw [hcf] at hs; cases hs
      | ok p =>
        obtain ⟨ms, cs⟩ := p
        simp only [hcf, Except.ok.injEq] at hs
        subst hs
        obtain ⟨hms, hlen2, hpt⟩ := convertFields_ok_spec schema fields ms cs hcf
        refine ⟨rfl, hms, hlen2, fun i hi => ?_⟩
        obtain ⟨f, m, c, hf, hm, hc, hcv⟩ := hpt i hi
        have hok := convert_ok hcv
        exact ⟨f, m, c, hf, hm, hc, hcv, hok.1, hok.2⟩
  · intro op₂ h
    rw [Op.next_scan_cons] at h
    cases hs : scanRow schema fields with
    | error e => simp only [hs] at h; cases h
    | ok r₂ => simp only [hs] at h; simp at h
  · intro e h
    rw [Op.next_scan_cons] at h
    cases hs : scanRow schema fields with
    | ok r₂ => simp only [hs] at h; cases h
    | error e₂ =>
      simp only [hs] at h
      cases h
      unfold scanRow at hs
      cases hcf : convertFields schema fields with
      | ok p =>
        obtain ⟨ms, cs⟩ := p
        simp only [hcf] at hs
        cases hs
      | error e₃ =>
        simp only [hcf] at hs
        cases hs
        obtain ⟨i, f, m, hf, hm, hc⟩ := convertFields_err_spec schema fields _ hlen hcf
        have hce := convert_error hc
        exact ⟨i, f, m, hf, hm, hce.1, hce.2.1, hce.2.2⟩

/-- Witness for C5 at a concrete input: scanning the record `1 tom` under
the schema `id:int:8 name:varchar:16` yields the row pairing the schema
with cells `intV 1` and `strV "tom"`. -/
theorem claim_C5_scan_conversion_witness :
    ((["1", "tom"].length ≤ schemaC.length) ∧
      (Op.scan [["1", "tom"]] schemaC).next = .ok (some rowC, .scan [] schemaC)) ∧
    (rowC.metas = schemaC.take 2 ∧ rowC.cells.length = 2) := by
  have happ := (claim_C5_scan_conversion schemaC ["1", "tom"] [] (by decide)).1
    rowC (.scan [] schemaC) (by decide)
  exact ⟨⟨by decide, by decide⟩, happ.2.1, happ.2.2.1⟩

/-- Locating a column by first index in the metadata corresponds to the
first matching (metadata, cell) pair of the zipped row. -/
theorem findIdx_zip_spec : ∀ (ms : List CellMetadata) (cs : List Cell) (c : String)
    (j : Nat), ms.length = cs.length →
    ms.findIdx? (fun cmd => cmd.name == c) = some j →
    ∃ m cell, ms[j]? = some m ∧ cs[j]? = some cell ∧ m.name = c ∧
      (ms.zip cs).find? (fun q => q.1.name == c) = some (m, cell) := by
  intro ms
  induction ms with
  | nil => intro cs c j _ h; simp at h
  | cons m ms₂ ih =>
    intro cs c j hlen h
    cases cs with
    | nil => simp at hlen
    | cons cell cs₂ =>
      rw [List.findIdx?_cons] at h
      by_cases hp : m.name == c
      · rw [if_pos hp] at h
        obtain rfl : (0 : Nat) = j := Option.some_inj.mp h
        refine ⟨m, cell, by simp, by simp, by simpa using hp, ?_⟩
        rw [List.zip_cons_cons]
        exact List.find?_cons_of_pos _ hp
      · rw [if_neg hp, List.findIdx?_succ] at h
        cases hidx : ms₂.findIdx? (fun cmd => cmd.name == c) with
        | none => rw [hidx] at h; simp at h
        | some j₂ =>
          rw [hidx] at h
          obtain rfl : j₂ + 1 = j := by simpa using h
          obtain ⟨m₂, cell₂, hm₂, hc₂, hn₂, hf₂⟩ := ih cs₂ c j₂ (by simpa using hlen) hidx
          refine ⟨m₂, cell₂, by simpa using hm₂, by simpa using hc₂, hn₂, ?_⟩
          rw [List.zip_cons_cons]
          have hb : (m.name == c) = false := by simpa using hp
          simp only [List.find?_cons, hb]
          exact hf₂

/-- When the filter loop finds no column of the given name, no zipped
pair matches, so the Project dict also has no entry for it. -/
theorem lastLookup_none_of_not_hasCol {row : Row} {c : String}
    (h : ¬ HasCol c row) : lastLookup (row.metas.zip row.cells) c = none := by
  unfold HasCol at h
  have hnone : findColIdx c row.metas = none := by
    cases hx : findColIdx c row.metas with
    | none => rfl
    | some j => rw [hx] at h; simp at h
  unfold findColIdx at hnone
  have hall := List.findIdx?_eq_none_iff.mp hnone
  unfold lastLookup
  have hfil : (row.metas.zip row.cells).filter (fun p => p.1.name == c) = [] := by
    rw [List.filter_eq_nil_iff]
    intro q hq
    obtain ⟨qm, qc⟩ := q
    have hqm : qm ∈ row.metas := (List.of_mem_zip hq).1
    simpa using hall qm hqm
  rw [hfil]
  rfl

/-- With unique column names, the last dict entry for a name is the first
(and only) matching pair. -/
theorem lastLookup_eq_find_of_nodup : ∀ (pairs : List (CellMetadata × Cell)) (c : String),
    (pairs.map (fun p => p.1.name)).Nodup →
    lastLookup pairs c = pairs.find? (fun p => p.1.name == c) := by
  intro pairs c
  induction pairs with
  | nil => intro _; rfl
  | cons p ps ih =>
    intro hnd
    rw [List.map_cons, List.nodup_cons] at hnd
    by_cases hp : p.1.name == c
    · have hb : (p.1.name == c) = true := hp
      have hnil : ps.filter (fun q => q.1.name == c) = [] := by
        rw [List.filter_eq_nil_iff]
        intro q hq hqc
        have hname : q.1.name = p.1.name := by
          have h1 : q.1.name = c := by simpa using hqc
          have h2 : p.1.name = c := by simpa using hp
          rw [h1, h2]
        exact hnd.1 (hname ▸ List.mem_map_of_mem (fun p => p.1.name) hq)
      unfold lastLookup
      simp only [List.filter_cons, List.find?_cons, hb, if_true, hnil,
        List.getLast?_singleton]
    · have hb : (p.1.name == c) = false := by simpa using hp
      unfold lastLookup
      simp only [List.filter_cons, List.find?_cons, hb, if_false]
      exact ih hnd.2

/-- When every requested name has a dict entry, the projection loop
succeeds. -/
theorem projectCols_ok_of_all_some : ∀ (pairs : List (CellMetadata × Cell))
    (cols : List String), (∀ c ∈ cols, (lastLookup pairs c).isSome) →
    ∃ ms cs, projectCols pairs cols = .ok (ms, cs) := by
  intro pairs cols
  induction cols with
  | nil => intro _; exact ⟨[], [], rfl⟩
  | cons c cols ih =>
    intro hall
    have hc := hall c (by simp)
    cases hl : lastLookup pairs c with
    | none => rw [hl] at hc; simp at hc
    | some mc =>
      obtain ⟨ms, cs, hrec⟩ := ih (fun c₂ hc₂ => hall c₂ (by simp [hc₂]))
      exact ⟨mc.1 :: ms, mc.2 :: cs, by simp [projectCols, hl, hrec]⟩

/-- The first requested name with no dict entry aborts the projection
loop with ColumnNotFoundError for that name. -/
theorem projectCols_err : ∀ (pairs : List (CellMetadata × Cell)) (pre : List String)
    (c : String) (post : List String),
    (∀ c₂ ∈ pre, (lastLookup pairs c₂).isSome) → lastLookup pairs c = none →
    projectCols pairs (pre ++ c :: post) = .error (.columnNotFound c) := by
  intro pairs pre
  induction pre with
  | nil =>
    intro c post _ hnone
    simp [projectCols, hnone]
  | cons p pre ih =>
    intro c post hall hnone
    have hp := hall p (by simp)
    cases hl : lastLookup pairs p with
    | none => rw [hl] at hp; simp at hp
    | some mc =>
      have hrec := ih c post (fun c₂ h₂ => hall c₂ (by simp [h₂])) hnone
      simp [projectCols, hl, hrec]

/-- C4: for every row (well-formed, unique column names) and requested
column list, Project's output row has exactly `len(cols)` cells
positioned in the order of `cols`, each metadata/cell pair identical to
the upstream pair located by name; requesting a name absent from the
row's metadata fails with ColumnNotFoundError (for the first such
name). -/
theorem claim_C4_project_correct (cols : List String) (row : Row)
    (hwf : WFRow row) (hnd : (row.metas.map CellMetadata.name).Nodup) :
    ((∀ c ∈ cols, HasCol c row) →
      ∃ out, Project.projectRow cols row = .ok out ∧
        out.metas.length = cols.length ∧ out.cells.length = cols.length ∧
        ∀ i, i < cols.length → ∃ (c : String) (j : Nat),
          cols[i]? = some c ∧ findColIdx c row.metas = some j ∧
          out.metas[i]? = row.metas[j]? ∧ out.cells[i]? = row.cells[j]?) ∧
    (∀ pre c post, cols = pre ++ c :: post → (∀ c₂ ∈ pre, HasCol c₂ row) →
      ¬ HasCol c row → Project.projectRow cols row = .error (.columnNotFound c)) := by
  have hwf' : row.metas.length = row.cells.length := hwf
  have hndz : ((row.metas.zip row.cells).map (fun p => p.1.name)).Nodup := by
    have hfst : (row.metas.zip row.cells).map Prod.fst = row.metas :=
      List.map_fst_zip row.metas row.cells (le_of_eq hwf')
    have hmm : (row.metas.zip row.cells).map (fun p => p.1.name) =
        ((row.metas.zip row.cells).map Prod.fst).map CellMetadata.name := by
      rw [List.map_map]
      rfl
    rw [hmm, hfst]
    exact hnd
  have hguard : ¬ row.cells.length < row.metas.length := by omega
  have hlook : ∀ c, HasCol c row → ∃ (j : Nat) (m : CellMetadata) (cell : Cell),
      findColIdx c row.metas = some j ∧ row.metas[j]? = some m ∧
      row.cells[j]? = some cell ∧
      lastLookup (row.metas.zip row.cells) c = some (m, cell) := by
    intro c hc
    unfold HasCol at hc
    cases hx : findColIdx c row.metas with
    | none => rw [hx] at hc; simp at hc
    | some j =>
      have hx₂ : row.metas.findIdx? (fun cmd => cmd.name == c) = some j := hx
      obtain ⟨m, cell, hm, hcell, hname, hfind⟩ :=
        findIdx_zip_spec row.metas row.cells c j hwf' hx₂
      refine ⟨j, m, cell, rfl, hm, hcell, ?_⟩
      rw [lastLookup_eq_find_of_nodup _ c hndz]
      exact hfind
  constructor
  · intro hall
    have hsome : ∀ c ∈ cols, (lastLookup (row.metas.zip row.cells) c).isSome := by
      intro c hc
      obtain ⟨j, m, cell, -, -, -, hl⟩ := hlook c (hall c hc)
      rw [hl]
      rfl
    obtain ⟨ms, cs, hpc⟩ := projectCols_ok_of_all_some _ cols hsome
    refine ⟨⟨ms, cs⟩, ?_, ?_, ?_, ?_⟩
    · unfold Project.projectRow
      rw [if_neg hguard]
      simp [hpc]
    · exact (projectCols_spec _ _ _ _ hpc).1
    · exact (projectCols_spec _ _ _ _ hpc).2.1
    · intro i hi
      obtain ⟨c, mc, hcols, hl, hmi, hci⟩ := (projectCols_spec _ _ _ _ hpc).2.2 i hi
      have hcmem : c ∈ cols := List.getElem?_mem hcols
      obtain ⟨j, m, cell, hj, hm, hcell, hl₂⟩ := hlook c (hall c hcmem)
      rw [hl] at hl₂
      obtain rfl : mc = (m, cell) := Option.some_inj.mp hl₂
      exact ⟨c, j, hcols, hj, by rw [hmi, hm], by rw [hci, hcell]⟩
  · intro pre c post hcols hpre hc
    subst hcols
    have hpres : ∀ c₂ ∈ pre, (lastLookup (row.metas.zip row.cells) c₂).isSome := by
      intro c₂ h₂
      obtain ⟨j, m, cell, -, -, -, hl⟩ := hlook c₂ (hpre c₂ h₂)
      rw [hl]
      rfl
    have herr := projectCols_err _ pre c post hpres (lastLookup_none_of_not_hasCol hc)
    unfold Project.projectRow
    rw [if_neg hguard]
    simp [herr]

/-- Witness for C4 at a concrete input: projecting `rowC` (columns id,
name) onto the list `[name, id]` reorders the pairs by name. -/
theorem claim_C4_project_correct_witness :
    (WFRow rowC ∧ (rowC.metas.map CellMetadata.name).Nodup ∧
      (∀ c ∈ ["name", "id"], HasCol c rowC)) ∧
    (∃ out, Project.projectRow ["name", "id"] rowC = .ok out ∧
      out.metas.length = (["name", "id"] : List String).length ∧
      out.cells.length = (["name", "id"] : List String).length ∧
      ∀ i, i < (["name", "id"] : List String).length → ∃ (c : String) (j : Nat),
        (["name", "id"] : List String)[i]? = some c ∧
        findColIdx c rowC.metas = some j ∧
        out.metas[i]? = rowC.metas[j]? ∧ out.cells[i]? = rowC.cells[j]?) := by
  refine ⟨⟨by decide, by decide, by decide⟩, ?_⟩
  exact (claim_C4_project_correct ["name", "id"] rowC (by decide) (by decide)).1 (by decide)

/-- On a well-formed row that has the column, `__filter__` evaluates to
the value-equality of the first cell named `name` with the literal. -/
theorem filterRow_eval {name : String} {v : Value} {r : Row}
    (hwf : WFRow r) (hcol : HasCol name r) :
    Filter.filterRow name v r = .ok (matchesVal name v r) := by
  unfold HasCol at hcol
  cases hx : findColIdx name r.metas with
  | none => rw [hx] at hcol; simp at hcol
  | some j =>
    obtain ⟨m, cell, hm, hc, hname, hfind⟩ :=
      findIdx_zip_spec r.metas r.cells name j hwf hx
    unfold Filter.filterRow
    simp only [hx, hc]
    unfold matchesVal lookupVal
    rw [hfind]
    rfl

/-- On a row without the column, `__filter__` raises ColumnNotFoundError. -/
theorem filterRow_col_err {name : String} {v : Value} {r : Row}
    (h : ¬ HasCol name r) :
    Filter.filterRow name v r = .error (.columnNotFound name) := by
  unfold HasCol at h
  cases hx : findColIdx name r.metas with
  | none => unfold Filter.filterRow; rw [hx]
  | some j => rw [hx] at h; simp at h

/-- Draining a Filter over an upstream whose full output is `l` (all rows
well-formed and carrying the column) yields exactly the matching rows of
`l`, in order. -/
theorem drain_filter_ok (name : String) (v : Value) : ∀ (n : Nat) (op : Op),
    op.rowsLeft ≤ n → ∀ (l : List Row), op.drain = .ok l →
    (∀ r ∈ l, WFRow r ∧ HasCol name r) →
    (Op.filter op name v).drain = .ok (l.filter (matchesVal name v)) := by
  intro n
  induction n using Nat.strong_induction_on with
  | _ n ihn =>
    intro op hle l hdrain hall
    rw [Op.drain_eq] at hdrain
    rw [Op.drain_eq, Op.next_filter]
    cases hd : op.next with
    | error e => rw [hd] at hdrain; cases hdrain
    | ok p =>
      obtain ⟨rd, op₂⟩ := p
      cases rd with
      | none =>
        simp only [hd] at hdrain
        have hl : l = [] := by simpa using hdrain.symm
        subst hl
        simp [hd]
      | some r =>
        simp only [hd] at hdrain
        cases hd₂ : op₂.drain with
        | error e => simp only [hd₂] at hdrain; cases hdrain
        | ok l₂ =>
          simp only [hd₂] at hdrain
          have hl : l = r :: l₂ := by simpa using hdrain.symm
          subst hl
          have hr := hall r (by simp)
          have hfr : Filter.filterRow name v r = .ok (matchesVal name v r) :=
            filterRow_eval hr.1 hr.2
          have hlt : op₂.rowsLeft < op.rowsLeft := (Op.next_inv hd).2.2 r rfl
          have hrec := ihn op₂.rowsLeft (by omega) op₂ (le_refl _) l₂ hd₂
            (fun r₂ h₂ => hall r₂ (by simp [h₂]))
          by_cases hm : matchesVal name v r
          · have hmt : matchesVal name v r = true := hm
            simp only [hd, hfr, hmt, hrec]
            simp [List.filter_cons, hmt]
          · have hmf : matchesVal name v r = false := by simpa using hm
            simp only [hd, hfr, hmf]
            rw [← Op.drain_eq]
            rw [hrec]
            simp [List.filter_cons, hmf]

/-- Draining a Filter whose upstream emits rows `pre` (all carrying the
column) and then a row without the column raises ColumnNotFoundError. -/
theorem drain_filter_err (name : String) (v : Value) : ∀ (n : Nat) (op : Op),
    op.rowsLeft ≤ n → ∀ (pre : List Row) (bad : Row) (post : List Row),
    op.drain = .ok (pre ++ bad :: post) →
    (∀ r ∈ pre, WFRow r ∧ HasCol name r) → ¬ HasCol name bad →
    (Op.filter op name v).drain = .error (.columnNotFound name) := by
  intro n
  induction n using Nat.strong_induction_on with
  | _ n ihn =>
    intro op hle pre bad post hdrain hpre hbad
    rw [Op.drain_eq] at hdrain
    rw [Op.drain_eq, Op.next_filter]
    cases hd : op.next with
    | error e => rw [hd] at hdrain; cases hdrain
    | ok p =>
      obtain ⟨rd, op₂⟩ := p
      cases rd with
      | none =>
        simp only [hd] at hdrain
        simp at hdrain
      | some r =>
        simp only [hd] at hdrain
        cases hd₂ : op₂.drain with
        | error e => simp only [hd₂] at hdrain; cases hdrain
        | ok l₂ =>
          simp only [hd₂] at hdrain
          have hl : r :: l₂ = pre ++ bad :: post := by simpa using hdrain
          have hlt : op₂.rowsLeft < op.rowsLeft := (Op.next_inv hd).2.2 r rfl
          cases pre with
          | nil =>
            simp only [List.nil_append] at hl
            obtain ⟨hrb, -⟩ : r = bad ∧ l₂ = post := by
              constructor
              · exact (List.cons.injEq _ _ _ _ ▸ hl).1
              · exact (List.cons.injEq _ _ _ _ ▸ hl).2
            subst hrb
            have hfr := filterRow_col_err (v := v) hbad
            simp [hd, hfr]
          | cons p₂ pre₂ =>
            simp only [List.cons_append] at hl
            have hrp : r = p₂ := (List.cons.injEq _ _ _ _ ▸ hl).1
            have hl₂ : l₂ = pre₂ ++ bad :: post := (List.cons.injEq _ _ _ _ ▸ hl).2
            subst hrp
            have hr := hpre r (by simp)
            have hfr : Filter.filterRow name v r = .ok (matchesVal name v r) :=
              filterRow_eval hr.1 hr.2
            have hrec := ihn op₂.rowsLeft (by omega) op₂ (le_refl _) pre₂ bad post
              (hl₂ ▸ hd₂) (fun r₂ h₂ => hpre r₂ (by simp [h₂])) hbad
            by_cases hm : matchesVal name v r
            · have hmt : matchesVal name v r = true := hm
              simp only [hd, hfr, hmt, hrec]
            · have hmf : matchesVal name v r = false := by simpa using hm
              simp only [hd, hfr, hmf]
              rw [← Op.drain_eq]
              exact hrec

/-- C3: for every upstream row sequence (of well-formed rows carrying the
column), Filter(name, v) yields exactly the upstream rows whose cell for
`name` equals `v` by value equality, in upstream order — a row is
yielded iff it matches — and Filter fails with ColumnNotFoundError as
soon as a pulled row has no column of that name. -/
theorem claim_C3_filter_correct (name : String) (v : Value) :
    (∀ rowsU : List Row, (∀ r ∈ rowsU, WFRow r ∧ HasCol name r) →
      (Op.filter (Op.sort rowsU 0) name v).drain =
        .ok (rowsU.filter (matchesVal name v))) ∧
    (∀ pre : List Row, ∀ bad : Row, ∀ post : List Row,
      (∀ r ∈ pre, WFRow r ∧ HasCol name r) → ¬ HasCol name bad →
      (Op.filter (Op.sort (pre ++ bad :: post) 0) name v).drain =
        .error (.columnNotFound name)) := by
  constructor
  · intro rowsU hall
    have hdrain : (Op.sort rowsU 0).drain = .ok rowsU := by
      rw [Op.drain_sort]
      simp
    exact drain_filter_ok name v (Op.sort rowsU 0).rowsLeft _ (le_refl _) rowsU
      hdrain hall
  · intro pre bad post hpre hbad
    have hdrain : (Op.sort (pre ++ bad :: post) 0).drain = .ok (pre ++ bad :: post) := by
      rw [Op.drain_sort]
      simp
    exact drain_filter_err name v (Op.sort (pre ++ bad :: post) 0).rowsLeft _
      (le_refl _) pre bad post hdrain hpre hbad

/-- Witness for C3 at concrete inputs: filtering `a = 1` over rows with
values 1, 2 yields exactly the row 1; over a stream containing a row
without column `a`, it raises ColumnNotFoundError. -/
theorem claim_C3_filter_correct_witness :
    ((∀ r ∈ [rowIntA 1, rowIntA 2], WFRow r ∧ HasCol "a" r) ∧
      (Op.filter (Op.sort [rowIntA 1, rowIntA 2] 0) "a" (.intV 1)).drain =
        .ok [rowIntA 1]) ∧
    (¬ HasCol "a" (Row.mk [] []) ∧
      (Op.filter (Op.sort [rowIntA 1, Row.mk [] []] 0) "a" (.intV 1)).drain =
        .error (.columnNotFound "a")) := by
  constructor
  · refine ⟨by decide, ?_⟩
    have happ := (claim_C3_filter_correct "a" (.intV 1)).1 [rowIntA 1, rowIntA 2]
      (by decide)
    have hfl : [rowIntA 1, rowIntA 2].filter (matchesVal "a" (Value.intV 1)) =
        [rowIntA 1] := by decide
    rw [← hfl]
    exact happ
  · refine ⟨by decide, ?_⟩
    exact (claim_C3_filter_correct "a" (.intV 1)).2 [rowIntA 1] (Row.mk [] []) []
      (by decide) (by decide)

/-- C1 (code evaluation at the failing input): `Limit.get_next` never
consults `offset`. With offset 1 and limit 1 over upstream records 10
and 20, the first call yields the upstream row at position 0 (value 10)
and the full output is the single row 10, while the claim requires
exactly the upstream rows at positions [1, 2), i.e. the row 20. -/
theorem claim_C1_limit_ignores_offset :
    limitOffsetEx.next =
      .ok (some (rowIntA 10), .limit (.scan [["20"]] schemaA) 1 1 1) ∧
    limitOffsetEx.drain = .ok [rowIntA 10] ∧
    [rowIntA 10] ≠ [rowIntA 20] := by
  decide

/-- C6 counterexample: Limit(0,1) over a scan whose records are `1`, `2`
and the non-numeric `x` under an INT column. The first call yields row 1;
the second call signals exhaustion (the cap is reached); the third call
raises ConversionError instead of signalling exhaustion again, because
`Limit.get_next` still pulls its downstream after exhaustion. -/
theorem claim_C6_counterexample :
    limitErrEx.next =
      .ok (some (rowIntA 1), .limit (.scan [["2"], ["x"]] schemaA) 0 1 1) ∧
    (Op.limit (.scan [["2"], ["x"]] schemaA) 0 1 1).next =
      .ok (none, .limit (.scan [["x"]] schemaA) 0 1 1) ∧
    (Op.limit (.scan [["x"]] schemaA) 0 1 1).next =
      .error (.conversionError "x") := by
  decide

/-- C6 (amended): once `get_next` has signalled exhaustion, no subsequent
call — however many times the call is repeated — ever returns a row;
each later call returns the exhausted signal again unless a pull it
makes on an upstream operator raises an error (which Limit can do even
after exhaustion, since it keeps pulling its downstream). -/
theorem claim_C6_exhaustion_idempotent (op op₁ : Op)
    (h : op.next = .ok (none, op₁)) :
    ∀ (k : Nat) (r? : Option Row) (op₂ : Op),
      Op.callN k op₁ = .ok (r?, op₂) → r? = none := by
  intro k
  induction k generalizing op op₁ with
  | zero =>
    intro r? op₂ h₂
    exact Op.next_none_step op op₁ h r? op₂ h₂
  | succ k ihk =>
    intro r? op₂ h₂
    simp only [Op.callN] at h₂
    cases h1 : op₁.next with
    | error e => simp only [h1] at h₂; cases h₂
    | ok p =>
      obtain ⟨rm, opm⟩ := p
      simp only [h1] at h₂
      have hrm : rm = none := Op.next_none_step op op₁ h rm opm h1
      subst hrm
      exact ihk op₁ opm h1 r? op₂ h₂

/-- Witness for C6 (amended) at a concrete input: an exhausted sort state
stays exhausted across two further calls. -/
theorem claim_C6_exhaustion_idempotent_witness :
    (Op.sort [rowIntA 5] 1).next = .ok (none, Op.sort [rowIntA 5] 1) ∧
    Op.callN 2 (Op.sort [rowIntA 5] 1) = .ok (none, Op.sort [rowIntA 5] 1) ∧
    (none : Option Row) = none :=
  ⟨by decide, by decide,
    claim_C6_exhaustion_idempotent (Op.sort [rowIntA 5] 1) (Op.sort [rowIntA 5] 1)
      (by decide) 2 none (Op.sort [rowIntA 5] 1) (by decide)⟩

/-- C7 (code evaluation at the failing input): closing a never-opened
TableScan fails — `self.file` is still `None`, so `self.file.close()`
raises — whereas after an open, `close()` succeeds and a second
`close()` also succeeds (closing a closed Python file is a no-op). -/
theorem claim_C7_close_unopened_fails :
    tableScanClose tableScanInitFile = .error .attributeError ∧
    tableScanClose (some true) = .ok (some false) ∧
    tableScanClose (some false) = .ok (some false) := by
  decide

/-- C9: the `CellMetadata` constructor stores the logical negation of the
nullability flag it was given — the attribute named `null` holds
"is not nullable". -/
theorem claim_C9_null_stores_negation (name : String) (data_type : DataType)
    (value_size : Int) (is_null : Bool) :
    (CellMetadata.init name data_type value_size is_null).null = !is_null := rfl

/-- C10: when Limit's running count has reached its cap, a further
`get_next` still pulls exactly one row from its downstream operator —
the downstream state advances to the successor state of that one pull
and the pulled row is discarded — before the exhausted signal is
returned. -/
theorem claim_C10_limit_pulls_after_cap (d : Op) (o l i : Int) (hcap : l ≤ i)
    (r? : Option Row) (d₂ : Op) (hd : d.next = .ok (r?, d₂)) :
    (Op.limit d o l i).next = .ok (none, .limit d₂ o l i) := by
  rw [Op.next_limit]
  cases r? with
  | none => simp [hd]
  | some r =>
    simp only [hd]
    rw [if_neg (by omega)]

/-- Witness for C10 at a concrete input: Limit(0,0) (cap already reached)
over a scan holding one record pulls and discards that record. -/
theorem claim_C10_limit_pulls_after_cap_witness :
    ((0 : Int) ≤ 0 ∧
      (Op.scan [["7"]] schemaA).next = .ok (some (rowIntA 7), .scan [] schemaA)) ∧
    (Op.limit (.scan [["7"]] schemaA) 0 0 0).next =
      .ok (none, .limit (.scan [] schemaA) 0 0 0) :=
  ⟨⟨by decide, by decide⟩,
    claim_C10_limit_pulls_after_cap (.scan [["7"]] schemaA) 0 0 0 (by decide)
      (some (rowIntA 7)) (.scan [] schemaA) (by decide)⟩

end MiniDb
